import Mathlib

/-!
# Versioned snapshot store (`data/storage/bolt.go`)

A shallow embedding of the bolt-backed storage layer: the version codec
(`uint64ToBytes`, `bytesToUint64`), the reverse-seek primitive (`reverseSeek`)
and the per-domain accessors (`Current*Version`, `GetAll*`, `Store*`).

Conventions of the embedding:

* a `uint64` is a `Nat` below `2 ^ 64` (theorems carry that bound as a hypothesis);
* a `byte` is a `Fin 256`, a `[]byte` is a `List (Fin 256)`, and a nil slice returned by
  the engine is `none`;
* a Go function that may panic returns `Except Panic _`;
* a Go result `(value, error)` is a pair whose second component is `none` for a nil error.
-/

namespace Storage

/-! ## Go runtime -/

/-- One `byte`. -/
abbrev Byte := Fin 256

/-- A byte slice `[]byte`. -/
abbrev Bytes := List Byte

/-- Run-time panics a Go function of this package can raise. -/
inductive Panic where
  /-- indexing a slice beyond its length -/
  | indexOutOfRange
  /-- calling through a nil `*bolt.Bucket` -/
  | nilDereference
  deriving DecidableEq, Repr

deriving instance DecidableEq for Except

/-- Outcome of a Go call: a returned value, or a panic that unwinds the caller. -/
abbrev Go (α : Type) := Except Panic α

/-- The `error` values that occur in this package. -/
inductive Error where
  /-- `errors.New(fmt.Sprintf("There is no data before timepoint %d", timepoint))` -/
  | noDataBeforeTimepoint (timepoint : Nat)
  /-- `errors.New(fmt.Sprintf("version %s doesn't exist", version))` -/
  | versionDoesNotExist (version : Nat)
  /-- `errors.New("Pair of token is not supported")` -/
  | pairNotSupported
  /-- an error returned by `encoding/json` -/
  | json (code : Nat)
  /-- `bolt.ErrBucketExists`, returned by `tx.CreateBucket` for a name already in use -/
  | bucketExists
  /-- any other error returned by the bolt engine (put, commit, open) -/
  | bolt (code : Nat)
  deriving DecidableEq, Repr

/-- The conversion `byte(x)` of an unsigned integer: the low eight bits. -/
def byte (x : Nat) : Byte := ⟨x % 256, Nat.mod_lt x (by decide)⟩

/-! ## Version codec -/

/-- `uint64ToBytes`: `make([]byte, 8)` filled by `binary.BigEndian.PutUint64`, which writes
`b[0] = byte(v >> 56)`, ..., `b[7] = byte(v)`. -/
def uint64ToBytes (u : Nat) : Bytes :=
  [byte (u >>> 56), byte (u >>> 48), byte (u >>> 40), byte (u >>> 32),
   byte (u >>> 24), byte (u >>> 16), byte (u >>> 8), byte u]

/-- `bytesToUint64`: `binary.BigEndian.Uint64(b)`, which first evaluates `b[7]` (a panic on a
slice shorter than eight bytes) and then combines `b[0..7]`; bytes after the eighth are not
read. -/
def bytesToUint64 (b : Bytes) : Go Nat :=
  match b with
  | b0 :: b1 :: b2 :: b3 :: b4 :: b5 :: b6 :: b7 :: _ =>
    .ok (b7.val ||| b6.val <<< 8 ||| b5.val <<< 16 ||| b4.val <<< 24 |||
         b3.val <<< 32 ||| b2.val <<< 40 ||| b1.val <<< 48 ||| b0.val <<< 56)
  | _ => .error Panic.indexOutOfRange

/-- `bytes.Compare`: byte-lexicographic comparison, the order of keys in a bucket. -/
def compareBytes : Bytes → Bytes → Ordering
  | [], [] => .eq
  | [], _ :: _ => .lt
  | _ :: _, [] => .gt
  | a :: as, b :: bs =>
    if a < b then .lt else if b < a then .gt else compareBytes as bs

/-- The number a byte string denotes when read as big-endian base-256 digits. -/
def bigEndianValue (b : Bytes) : Nat :=
  b.foldl (fun acc d => acc * 256 + d.val) 0

/-! ## The ordered key-value engine -/

/-- Modelled from the spec: a bucket of the ordered key-value engine (§6, "each a sorted map
from 8-byte big-endian version to an opaque serialized payload blob"), given by its entries
in cursor order. The engine itself (boltdb) is an external collaborator. -/
structure Bucket where
  entries : List (Bytes × Bytes)
  deriving DecidableEq, Repr

/-- The keys of a bucket, in cursor order. -/
def Bucket.keys (b : Bucket) : List Bytes := b.entries.map Prod.fst

/-- Modelled from the spec: the engine keeps the keys of a bucket unique and sorted
(§3 "key uniqueness from the engine", §2 "ordered cursor"): strictly ascending for
`bytes.Compare`. -/
def Bucket.Ordered (b : Bucket) : Prop :=
  b.keys.Pairwise (fun k k' => compareBytes k k' = .lt)

instance (b : Bucket) : Decidable b.Ordered := by
  unfold Bucket.Ordered; infer_instance

/-- Modelled from the spec: `bucket.get(key) -> bytes|nil` (§6). -/
def Bucket.Get (b : Bucket) (key : Bytes) : Option Bytes :=
  b.entries.lookup key

/-- Insertion of `(key, value)` at its place in cursor order, replacing the entry of an
equal key. -/
def insertEntry (key value : Bytes) : List (Bytes × Bytes) → List (Bytes × Bytes)
  | [] => [(key, value)]
  | e :: es =>
    match compareBytes key e.1 with
    | .lt => (key, value) :: e :: es
    | .eq => (key, value) :: es
    | .gt => e :: insertEntry key value es

/-- Modelled from the spec: `bucket.put(key, bytes) -> error` (§6), "unconditionally
overwriting any prior value at that exact key" (§4.3). Whether the engine accepts the write
is the engine's affair: `fault` is the error it returns, `none` when it accepts. -/
def Bucket.Put (b : Bucket) (fault : Option Error) (key value : Bytes) :
    Bucket × Option Error :=
  match fault with
  | some e => (b, some e)
  | none => (⟨insertEntry key value b.entries⟩, none)

/-- Modelled from the spec: the engine's cursor (§6): a bucket and a position in it,
`none` before the first seek and after stepping back past the first key. -/
structure Cursor where
  bucket : Bucket
  pos : Option Nat
  deriving DecidableEq, Repr

/-- Modelled from the spec: `bucket.cursor()` (§6), a fresh cursor. -/
def Bucket.Cursor (b : Bucket) : Cursor := ⟨b, none⟩

/-- Modelled from the spec: `cursor.seek(key) -> (key,value)|nil` (§6), "seek the cursor to
the first stored key ≥" the sought one (§4.2); nil when every stored key is smaller, the
cursor then standing after the last key. -/
def Cursor.Seek (c : Cursor) (seek : Bytes) : Option (Bytes × Bytes) × Cursor :=
  let i := c.bucket.entries.findIdx (fun e => decide (compareBytes e.1 seek ≠ .lt))
  (c.bucket.entries[i]?, { c with pos := some i })

/-- Modelled from the spec: `cursor.prev() -> (key,value)|nil` (§6), "step to the previous
key" (§4.2); nil when there is none. -/
def Cursor.Prev (c : Cursor) : Option (Bytes × Bytes) × Cursor :=
  match c.pos with
  | none => (none, c)
  | some 0 => (none, { c with pos := none })
  | some (i + 1) => (c.bucket.entries[i]?, { c with pos := some i })

/-- The state of the database file: the bucket of each name, `none` for a name without
bucket. -/
structure DB where
  buckets : String → Option Bucket

/-- `tx.Bucket([]byte(name))`: the bucket of that name, nil when it does not exist. -/
def DB.Bucket (tx : DB) (name : String) : Option Storage.Bucket := tx.buckets name

/-- The transaction state after bucket `name` has been replaced by `b`. -/
def DB.setBucket (tx : DB) (name : String) (b : Storage.Bucket) : DB :=
  ⟨fun n => if n = name then some b else tx.buckets n⟩

/-- Modelled from the spec: `handle.view(fn)` (§6), a read transaction: `fn` runs on the
committed state. -/
def DB.View {σ : Type} (db : DB) (fn : DB → Go σ) : Go σ := fn db

/-- Modelled from the spec: `handle.update(fn) -> error` (§6), a write transaction. `fn`
returns the values it assigned to captured variables, the transaction state it produced and
its own error result. A non-nil result of `fn` rolls the transaction back and is returned;
otherwise the transaction commits, unless the engine fails the commit with `commit`, which
leaves the database as it was. A panic in `fn` unwinds through `Update`. -/
def DB.Update {σ : Type} (db : DB) (commit : Option Error)
    (fn : DB → Go (σ × DB × Option Error)) : Go (σ × DB × Option Error) :=
  match fn db with
  | .error p => .error p
  | .ok (captured, _, some e) => .ok (captured, db, some e)
  | .ok (captured, tx, none) =>
    match commit with
    | some e => .ok (captured, db, some e)
    | none => .ok (captured, tx, none)

/-- Modelled from the spec: what the engine does to one write transaction (§7 "transaction
failures from the engine"): the error of `bucket.put` and the error of the commit, each
`none` when that step succeeds. -/
structure TxFault where
  put : Option Error
  commit : Option Error
  deriving DecidableEq, Repr

/-- The engine carries the write transaction through. -/
def TxFault.none : TxFault := ⟨Option.none, Option.none⟩

/-- Modelled from the spec: the payload codec (§6 "encode(payload) -> bytes | EncodeError;
decode(bytes, shape) -> payload | DecodeError"), here `encoding/json` at the payload type
`α`. `zero` is the value the accessor declares before decoding (`map[..]..{}`,
`common.AllRateEntry{}`); `Unmarshal data v` is `json.Unmarshal(data, &v)`: the value left
in `v` and the error. Errors are `encoding/json` error codes. -/
structure Codec (α : Type) where
  zero : α
  Marshal : α → Except Nat Bytes
  Unmarshal : Bytes → α → α × Option Nat

/-- Modelled from the spec: `common.Version`, "an unsigned 64-bit integer" (§3); the
conversions `common.Version(u)` and `uint64(version)` are the identity. -/
abbrev Version := Nat

/-! ## The storage layer -/

def PRICE_BUCKET : String := "prices"
def BALANCE_BUCKET : String := "balances"
def EXCHANGE_BALANCE_BUCKET : String := "ebalances"
def RATE_BUCKET : String := "rates"

/-- `reverseSeek(timepoint, c)`. -/
def reverseSeek (timepoint : Nat) (c : Cursor) : Go (Nat × Option Error) :=
  match c.Seek (uint64ToBytes timepoint) with
  | (none, c) =>
    match (c.Prev).1 with
    | none => .ok (0, some (.noDataBeforeTimepoint timepoint))
    | some version => (bytesToUint64 version.1).map (fun v => (v, none))
  | (some version, c) =>
    match bytesToUint64 version.1 with
    | .error p => .error p
    | .ok v =>
      if v = timepoint then .ok (v, none)
      else
        match (c.Prev).1 with
        | none => .ok (0, some (.noDataBeforeTimepoint timepoint))
        | some version => (bytesToUint64 version.1).map (fun v => (v, none))

/-- The body shared by the four `Current*Version` methods, which differ in the bucket name
only: `db.View` of `c := tx.Bucket(name).Cursor(); result, err = reverseSeek(timepoint, c)`,
then `return common.Version(result), err`. -/
def currentVersion (name : String) (db : DB) (timepoint : Nat) : Go (Version × Option Error) :=
  db.View (fun tx =>
    match tx.Bucket name with
    | none => .error Panic.nilDereference
    | some b => reverseSeek timepoint b.Cursor)

/-- The body shared by the four `GetAll*` methods, which differ in the bucket name and the
payload type: `db.View` of `data := tx.Bucket(name).Get(uint64ToBytes(uint64(version)))`,
the "doesn't exist" error for nil data and `json.Unmarshal(data, &result)` otherwise, then
`return result, err`. -/
def getAll {α : Type} (name : String) (codec : Codec α) (db : DB) (version : Version) :
    Go (α × Option Error) :=
  db.View (fun tx =>
    match tx.Bucket name with
    | none => .error Panic.nilDereference
    | some b =>
      match b.Get (uint64ToBytes version) with
      | none => .ok (codec.zero, some (.versionDoesNotExist version))
      | some data =>
        let r := codec.Unmarshal data codec.zero
        .ok (r.1, r.2.map Error.json))

/-- The body shared by the four `Store*` methods, which differ in the bucket name and the
payload type: `db.Update` of `b := tx.Bucket(name); dataJson, err = json.Marshal(data)`,
`return err` when that failed and `return b.Put(uint64ToBytes(timepoint), dataJson)`
otherwise; the result of `db.Update` is dropped and the method ends with `return err`.
Returns the database state afterwards together with the returned error. -/
def store {α : Type} (name : String) (codec : Codec α) (db : DB) (fault : TxFault)
    (data : α) (timepoint : Nat) : Go (DB × Option Error) :=
  let updated := db.Update fault.commit (fun tx =>
    let b := tx.Bucket name
    match codec.Marshal data with
    | .error e => .ok (some (Error.json e), tx, some (Error.json e))
    | .ok dataJson =>
      match b with
      | none => .error Panic.nilDereference
      | some b =>
        let r := b.Put fault.put (uint64ToBytes timepoint) dataJson
        .ok (none, tx.setBucket name r.1, r.2))
  updated.map (fun r => (r.2.1, r.1))

/-- `CurrentPriceVersion`: `c := tx.Bucket([]byte(PRICE_BUCKET)).Cursor()`. -/
def CurrentPriceVersion (db : DB) (timepoint : Nat) : Go (Version × Option Error) :=
  currentVersion PRICE_BUCKET db timepoint

/-- `GetAllPrices`: `b := tx.Bucket([]byte(PRICE_BUCKET))`. -/
def GetAllPrices {α : Type} (codec : Codec α) (db : DB) (version : Version) :
    Go (α × Option Error) :=
  getAll PRICE_BUCKET codec db version

/-- `CurrentBalanceVersion`: `c := tx.Bucket([]byte(BALANCE_BUCKET)).Cursor()`. -/
def CurrentBalanceVersion (db : DB) (timepoint : Nat) : Go (Version × Option Error) :=
  currentVersion BALANCE_BUCKET db timepoint

/-- `GetAllBalances`: `b := tx.Bucket([]byte(PRICE_BUCKET))`, as the source has it. -/
def GetAllBalances {α : Type} (codec : Codec α) (db : DB) (version : Version) :
    Go (α × Option Error) :=
  getAll PRICE_BUCKET codec db version

/-- `CurrentEBalanceVersion`: `c := tx.Bucket([]byte(EXCHANGE_BALANCE_BUCKET)).Cursor()`. -/
def CurrentEBalanceVersion (db : DB) (timepoint : Nat) : Go (Version × Option Error) :=
  currentVersion EXCHANGE_BALANCE_BUCKET db timepoint

/-- `GetAllEBalances`: `b := tx.Bucket([]byte(PRICE_BUCKET))`, as the source has it. -/
def GetAllEBalances {α : Type} (codec : Codec α) (db : DB) (version : Version) :
    Go (α × Option Error) :=
  getAll PRICE_BUCKET codec db version

/-- `CurrentRateVersion`: `c := tx.Bucket([]byte(RATE_BUCKET)).Cursor()`. -/
def CurrentRateVersion (db : DB) (timepoint : Nat) : Go (Version × Option Error) :=
  currentVersion RATE_BUCKET db timepoint

/-- `GetAllRates`: `b := tx.Bucket([]byte(RATE_BUCKET))`. -/
def GetAllRates {α : Type} (codec : Codec α) (db : DB) (version : Version) :
    Go (α × Option Error) :=
  getAll RATE_BUCKET codec db version

/-- `StorePrice`: `b := tx.Bucket([]byte(PRICE_BUCKET))`. -/
def StorePrice {α : Type} (codec : Codec α) (db : DB) (fault : TxFault) (data : α)
    (timepoint : Nat) : Go (DB × Option Error) :=
  store PRICE_BUCKET codec db fault data timepoint

/-- `StoreBalance`: `b := tx.Bucket([]byte(BALANCE_BUCKET))`. -/
def StoreBalance {α : Type} (codec : Codec α) (db : DB) (fault : TxFault) (data : α)
    (timepoint : Nat) : Go (DB × Option Error) :=
  store BALANCE_BUCKET codec db fault data timepoint

/-- `StoreEBalance`: `b := tx.Bucket([]byte(EXCHANGE_BALANCE_BUCKET))`. -/
def StoreEBalance {α : Type} (codec : Codec α) (db : DB) (fault : TxFault) (data : α)
    (timepoint : Nat) : Go (DB × Option Error) :=
  store EXCHANGE_BALANCE_BUCKET codec db fault data timepoint

/-- `StoreRate`: `b := tx.Bucket([]byte(RATE_BUCKET))`. -/
def StoreRate {α : Type} (codec : Codec α) (db : DB) (fault : TxFault) (data : α)
    (timepoint : Nat) : Go (DB × Option Error) :=
  store RATE_BUCKET codec db fault data timepoint

/-- The engine's `tx.CreateBucket(name)` (boltdb, an external collaborator): it creates a
new, empty bucket and returns `bolt.ErrBucketExists` when a bucket of that name is already
there; the engine's create-if-absent call is `CreateBucketIfNotExists`, which the source
does not use. Returns the transaction state and the error. -/
def DB.CreateBucket (tx : DB) (name : String) : DB × Option Error :=
  match tx.Bucket name with
  | some _ => (tx, some Error.bucketExists)
  | none => (tx.setBucket name ⟨[]⟩, none)

/-- The bucket-creation transaction of `NewBoltStorage`: `db.Update` of the four
`_, err = tx.CreateBucket(..)`, each followed by `if err != nil { return err }`, ending in
`return nil`. The first component is the captured `err`, the last the result of
`db.Update`. -/
def initBuckets (db : DB) (commit : Option Error) : Go (Option Error × DB × Option Error) :=
  db.Update commit (fun tx =>
    let r1 := tx.CreateBucket PRICE_BUCKET
    match r1.2 with
    | some e => .ok (some e, r1.1, some e)
    | none =>
      let r2 := r1.1.CreateBucket BALANCE_BUCKET
      match r2.2 with
      | some e => .ok (some e, r2.1, some e)
      | none =>
        let r3 := r2.1.CreateBucket EXCHANGE_BALANCE_BUCKET
        match r3.2 with
        | some e => .ok (some e, r3.1, some e)
        | none =>
          let r4 := r3.1.CreateBucket RATE_BUCKET
          match r4.2 with
          | some e => .ok (some e, r4.1, some e)
          | none => .ok (none, r4.1, none))

/-- `NewBoltStorage(path)`. `opened` is what `bolt.Open(path, 0600, nil)` gives: an error,
or the database found at the path; `commit` is the engine's verdict on the commit of the
bucket-creation transaction. After a failed open the result is `nil, err`; otherwise the
result of `db.Update` is dropped and the method ends with `return &BoltStorage{db}, nil`.
Returns the store (the database state behind it) and the error. -/
def NewBoltStorage (opened : Except Error DB) (commit : Option Error) :
    Go (Option DB × Option Error) :=
  match opened with
  | .error e => .ok (none, some e)
  | .ok db => (initBuckets db commit).map (fun r => (some r.2.1, none))

/-- `GetOnePrice(pair, version)`: the read transaction of `GetAllPrices` (the same body),
then `return common.OnePrice{}, err` on an error, and otherwise `pair, exist := result[pair]`
with `return pair, nil` when it exists and the "not supported" error when it does not.
The decoded payload is a Go map, here a function to `Option`; `zeroPrice` is
`common.OnePrice{}`. -/
def GetOnePrice {K V : Type} (codec : Codec (K → Option V)) (zeroPrice : V) (db : DB)
    (pair : K) (version : Version) : Go (V × Option Error) :=
  match getAll PRICE_BUCKET codec db version with
  | .error p => .error p
  | .ok (_, some err) => .ok (zeroPrice, some err)
  | .ok (result, none) =>
    match result pair with
    | some price => .ok (price, none)
    | none => .ok (zeroPrice, some Error.pairNotSupported)

/-- Every key of the bucket is the encoding of a version (a `uint64`). -/
def Bucket.VersionKeys (b : Bucket) : Prop :=
  ∀ k ∈ b.keys, ∃ v, v < 2 ^ 64 ∧ k = uint64ToBytes v

/-- The codec round trip at payload `p`: it encodes, and decoding the encoding into the
zero value gives `p` back with no error. -/
def Codec.RoundTrip {α : Type} (codec : Codec α) (p : α) : Prop :=
  ∃ data, codec.Marshal p = .ok data ∧ codec.Unmarshal data codec.zero = (p, none)

/-! ## Domains and sequences of store calls -/

/-- The four data domains (§3). -/
inductive Domain where
  | prices
  | balances
  | ebalances
  | rates
  deriving DecidableEq, Repr

/-- The bucket named by the store method and the version lookup of a domain. -/
def Domain.bucket : Domain → String
  | .prices => PRICE_BUCKET
  | .balances => BALANCE_BUCKET
  | .ebalances => EXCHANGE_BALANCE_BUCKET
  | .rates => RATE_BUCKET

/-- The store method of a domain. -/
def Domain.Store {α : Type} (D : Domain) (codec : Codec α) (db : DB) (fault : TxFault)
    (data : α) (timepoint : Nat) : Go (DB × Option Error) :=
  match D with
  | .prices => StorePrice codec db fault data timepoint
  | .balances => StoreBalance codec db fault data timepoint
  | .ebalances => StoreEBalance codec db fault data timepoint
  | .rates => StoreRate codec db fault data timepoint

/-- The version lookup of a domain. -/
def Domain.CurrentVersion (D : Domain) (db : DB) (timepoint : Nat) :
    Go (Version × Option Error) :=
  match D with
  | .prices => CurrentPriceVersion db timepoint
  | .balances => CurrentBalanceVersion db timepoint
  | .ebalances => CurrentEBalanceVersion db timepoint
  | .rates => CurrentRateVersion db timepoint

/-- One call of a store method: the domain, the payload (of the domain's payload type) and
the timepoint. -/
structure StoreCall (P : Domain → Type) where
  domain : Domain
  data : P domain
  timepoint : Nat

/-- A sequence of store calls, each in a transaction the engine carries through, from
state `db`: the state reached and the error each call returned. -/
def runStores {P : Domain → Type} (codec : (D : Domain) → Codec (P D)) :
    DB → List (StoreCall P) → Go (DB × List (Option Error))
  | db, [] => .ok (db, [])
  | db, c :: rest =>
    match c.domain.Store (codec c.domain) db TxFault.none c.data c.timepoint with
    | .error p => .error p
    | .ok (db', err) =>
      match runStores codec db' rest with
      | .error p => .error p
      | .ok (db'', errs) => .ok (db'', err :: errs)

/-- The timepoints passed to the store method of domain `D` in a sequence of calls. -/
def timepointsOf {P : Domain → Type} (D : Domain) (calls : List (StoreCall P)) : List Nat :=
  (calls.filter (fun c => decide (c.domain = D))).map (fun c => c.timepoint)

/-! ## Concrete data for evaluation -/

/-- A bucket holding one entry per version, in the given order, with empty payloads. -/
def bucketOfVersions (vs : List Nat) : Bucket :=
  ⟨vs.map (fun v => (uint64ToBytes v, []))⟩

/-- A store with the four buckets present and empty. -/
def freshStore : DB := ⟨fun n =>
  if n = PRICE_BUCKET ∨ n = BALANCE_BUCKET ∨ n = EXCHANGE_BALANCE_BUCKET ∨ n = RATE_BUCKET
  then some ⟨[]⟩ else none⟩

/-- A codec whose payloads are the stored bytes themselves; it never fails. -/
def rawCodec : Codec Bytes where
  zero := []
  Marshal := fun p => .ok p
  Unmarshal := fun data _ => (data, none)

/-- Payloads of the evaluation codec, in every domain. -/
def rawPayload : Domain → Type := fun _ => Bytes

/-- Three store calls: prices at 10, balances at 15, prices at 30. -/
def sampleCalls : List (StoreCall rawPayload) :=
  [⟨.prices, ([1] : Bytes), 10⟩, ⟨.balances, ([2] : Bytes), 15⟩, ⟨.prices, ([3] : Bytes), 30⟩]

/-- A database file without any bucket. -/
def emptyDB : DB := ⟨fun _ => none⟩

/-- A database file that holds the prices bucket only (empty). -/
def onlyPrices : DB := ⟨fun n => if n = PRICE_BUCKET then some ⟨[]⟩ else none⟩

/-- A codec of price maps for evaluation: every non-empty encoding decodes to the map that
sends pair 1 to price 5, the empty encoding is malformed (error 3). -/
def sampleMapCodec : Codec (Nat → Option Nat) where
  zero := fun _ => none
  Marshal := fun _ => .ok [1]
  Unmarshal := fun data v =>
    match data with
    | [] => (v, some 3)
    | _ :: _ => (fun k => if k = 1 then some 5 else none, none)

/-- A codec whose encoding always fails (error 9). -/
def failingCodec : Codec Bytes where
  zero := []
  Marshal := fun _ => .error 9
  Unmarshal := fun data _ => (data, none)

/-- A store whose prices bucket holds versions 10, 20 and 30 and whose rates bucket holds
version 5, the other two buckets being empty. -/
def sampleStore : DB :=
  (freshStore.setBucket PRICE_BUCKET
      ⟨[(uint64ToBytes 10, [1]), (uint64ToBytes 20, [2]), (uint64ToBytes 30, [])]⟩).setBucket
    RATE_BUCKET ⟨[(uint64ToBytes 5, [7])]⟩

/-! ## Version codec: lemmas -/

theorem or_shiftLeft_eq_add (x y k : Nat) (hx : x < 2 ^ k) : x ||| y <<< k = x + y * 2 ^ k := by
  rw [Nat.shiftLeft_eq, Nat.or_comm, Nat.mul_comm y, ← Nat.mul_add_lt_is_or hx]
  omega

theorem bytesToUint64_eight (b0 b1 b2 b3 b4 b5 b6 b7 : Byte) (rest : Bytes) :
    bytesToUint64 (b0 :: b1 :: b2 :: b3 :: b4 :: b5 :: b6 :: b7 :: rest)
      = .ok (bigEndianValue [b0, b1, b2, b3, b4, b5, b6, b7]) := by
  have h0 := b0.isLt
  have h1 := b1.isLt
  have h2 := b2.isLt
  have h3 := b3.isLt
  have h4 := b4.isLt
  have h5 := b5.isLt
  have h6 := b6.isLt
  have h7 := b7.isLt
  simp only [bytesToUint64, bigEndianValue, List.foldl]
  rw [or_shiftLeft_eq_add _ _ 8 (by omega), or_shiftLeft_eq_add _ _ 16 (by omega),
    or_shiftLeft_eq_add _ _ 24 (by omega), or_shiftLeft_eq_add _ _ 32 (by omega),
    or_shiftLeft_eq_add _ _ 40 (by omega), or_shiftLeft_eq_add _ _ 48 (by omega),
    or_shiftLeft_eq_add _ _ 56 (by omega)]
  congr 1
  omega

theorem bigEndianValue_uint64ToBytes (v : Nat) (hv : v < 2 ^ 64) :
    bigEndianValue (uint64ToBytes v) = v := by
  simp only [uint64ToBytes, bigEndianValue, List.foldl, byte, Nat.shiftRight_eq_div_pow]
  omega

theorem bytesToUint64_uint64ToBytes (v : Nat) (hv : v < 2 ^ 64) :
    bytesToUint64 (uint64ToBytes v) = .ok v := by
  have h := bigEndianValue_uint64ToBytes v hv
  rw [uint64ToBytes] at h ⊢
  rw [bytesToUint64_eight, h]

theorem foldl_bigEndian (acc : Nat) (b : Bytes) :
    b.foldl (fun acc d => acc * 256 + d.val) acc
      = acc * 256 ^ b.length + b.foldl (fun acc d => acc * 256 + d.val) 0 := by
  induction b generalizing acc with
  | nil => simp
  | cons d ds ih =>
    simp only [List.foldl, List.length_cons]
    rw [ih (acc * 256 + d.val), ih (0 * 256 + d.val)]
    ring

theorem bigEndianValue_cons (d : Byte) (ds : Bytes) :
    bigEndianValue (d :: ds) = d.val * 256 ^ ds.length + bigEndianValue ds := by
  simp only [bigEndianValue, List.foldl]
  rw [foldl_bigEndian]
  simp

theorem bigEndianValue_lt (b : Bytes) : bigEndianValue b < 256 ^ b.length := by
  induction b with
  | nil => simp [bigEndianValue]
  | cons d ds ih =>
    rw [bigEndianValue_cons, List.length_cons, pow_succ]
    have hd := d.isLt
    have : d.val * 256 ^ ds.length + 256 ^ ds.length ≤ 256 ^ ds.length * 256 := by
      have h := Nat.mul_le_mul_right (256 ^ ds.length) (show d.val + 1 ≤ 256 by omega)
      calc d.val * 256 ^ ds.length + 256 ^ ds.length
          = (d.val + 1) * 256 ^ ds.length := by ring
        _ ≤ 256 * 256 ^ ds.length := h
        _ = 256 ^ ds.length * 256 := by ring
    omega

theorem compareBytes_eq_iff (a b : Bytes) : compareBytes a b = .eq ↔ a = b := by
  induction a generalizing b with
  | nil => cases b <;> simp [compareBytes]
  | cons x xs ih =>
    cases b with
    | nil => simp [compareBytes]
    | cons y ys =>
      simp only [compareBytes, List.cons.injEq]
      by_cases h1 : x < y
      · simp [h1, (ne_of_lt h1)]
      · by_cases h2 : y < x
        · simp [h1, h2, (ne_of_gt h2)]
        · have hxy : x = y := le_antisymm (not_lt.mp h2) (not_lt.mp h1)
          simp [h1, hxy, ih]

theorem compareBytes_gt_iff (a b : Bytes) : compareBytes a b = .gt ↔ compareBytes b a = .lt := by
  induction a generalizing b with
  | nil => cases b <;> simp [compareBytes]
  | cons x xs ih =>
    cases b with
    | nil => simp [compareBytes]
    | cons y ys =>
      simp only [compareBytes]
      by_cases h1 : x < y
      · simp [h1, (not_lt_of_gt h1)]
      · by_cases h2 : y < x
        · simp [h1, h2]
        · simp [h1, h2, ih]

theorem compareBytes_lt_trans (a b c : Bytes) (hab : compareBytes a b = .lt)
    (hbc : compareBytes b c = .lt) : compareBytes a c = .lt := by
  induction a generalizing b c with
  | nil =>
    cases b with
    | nil => simp [compareBytes] at hab
    | cons y ys =>
      cases c with
      | nil => simp [compareBytes] at hbc
      | cons z zs => simp [compareBytes]
  | cons x xs ih =>
    cases b with
    | nil => simp [compareBytes] at hab
    | cons y ys =>
      cases c with
      | nil => simp [compareBytes] at hbc
      | cons z zs =>
        simp only [compareBytes] at hab hbc ⊢
        by_cases h1 : x < y
        · by_cases h2 : y < z
          · simp [lt_trans h1 h2]
          · by_cases h3 : z < y
            · simp [h2, h3] at hbc
            · have hyz : y = z := le_antisymm (not_lt.mp h3) (not_lt.mp h2)
              subst hyz
              simp [h1]
        · by_cases h1' : y < x
          · simp [h1, h1'] at hab
          · have hxy : x = y := le_antisymm (not_lt.mp h1') (not_lt.mp h1)
            subst hxy
            simp only [h1, if_false] at hab
            by_cases h2 : x < z
            · simp [h2]
            · by_cases h3 : z < x
              · simp [h2, h3] at hbc
              · simp only [h2, h3, if_false] at hbc ⊢
                exact ih ys zs hab hbc

/-- On byte strings of one length, `bytes.Compare` orders as the big-endian values do. -/
theorem compareBytes_lt_iff_value (a b : Bytes) (hlen : a.length = b.length) :
    compareBytes a b = .lt ↔ bigEndianValue a < bigEndianValue b := by
  induction a generalizing b with
  | nil =>
    cases b with
    | nil => simp [compareBytes, bigEndianValue]
    | cons y ys => simp at hlen
  | cons x xs ih =>
    cases b with
    | nil => simp at hlen
    | cons y ys =>
      have hl : xs.length = ys.length := by simpa using hlen
      rw [bigEndianValue_cons, bigEndianValue_cons, hl]
      have hxs := bigEndianValue_lt xs
      have hys := bigEndianValue_lt ys
      rw [hl] at hxs
      simp only [compareBytes]
      by_cases h1 : x < y
      · simp only [h1, if_true, true_iff]
        have h := Nat.mul_le_mul_right (256 ^ ys.length) (show x.val + 1 ≤ y.val from h1)
        have e : (x.val + 1) * 256 ^ ys.length = x.val * 256 ^ ys.length + 256 ^ ys.length := by
          ring
        omega
      · by_cases h2 : y < x
        · simp only [h1, h2, if_false, if_true]
          have h := Nat.mul_le_mul_right (256 ^ ys.length) (show y.val + 1 ≤ x.val from h2)
          have e : (y.val + 1) * 256 ^ ys.length = y.val * 256 ^ ys.length + 256 ^ ys.length := by
            ring
          constructor
          · intro h; cases h
          · intro h; omega
        · have hxy : x = y := le_antisymm (not_lt.mp h2) (not_lt.mp h1)
          subst hxy
          simp only [h1, if_false]
          rw [ih ys hl]
          omega

theorem uint64ToBytes_length (v : Nat) : (uint64ToBytes v).length = 8 := rfl

theorem compareBytes_uint64ToBytes_lt (u v : Nat) (hu : u < 2 ^ 64) (hv : v < 2 ^ 64) :
    compareBytes (uint64ToBytes u) (uint64ToBytes v) = .lt ↔ u < v := by
  have hlen : (uint64ToBytes u).length = (uint64ToBytes v).length := by
    rw [uint64ToBytes_length, uint64ToBytes_length]
  rw [compareBytes_lt_iff_value (uint64ToBytes u) (uint64ToBytes v) hlen,
    bigEndianValue_uint64ToBytes u hu, bigEndianValue_uint64ToBytes v hv]

theorem uint64ToBytes_injective (u v : Nat) (hu : u < 2 ^ 64) (hv : v < 2 ^ 64)
    (h : uint64ToBytes u = uint64ToBytes v) : u = v := by
  have h1 := bigEndianValue_uint64ToBytes u hu
  have h2 := bigEndianValue_uint64ToBytes v hv
  rw [h] at h1
  exact h1.symm.trans h2

/-! ## Reverse seek: lemmas -/

theorem versionKey_value (k : Bytes) (h : ∃ v, v < 2 ^ 64 ∧ k = uint64ToBytes v) :
    bigEndianValue k < 2 ^ 64 ∧ k = uint64ToBytes (bigEndianValue k)
      ∧ bytesToUint64 k = .ok (bigEndianValue k) := by
  obtain ⟨v, hv, rfl⟩ := h
  rw [bigEndianValue_uint64ToBytes v hv]
  exact ⟨hv, rfl, bytesToUint64_uint64ToBytes v hv⟩

/-- What `reverseSeek` returns on an ordered bucket of version keys: the greatest stored
version at or before the timepoint, or the "no data" error when every stored version is
later. -/
theorem reverseSeek_spec (b : Bucket) (t : Nat) (ht : t < 2 ^ 64) (hord : b.Ordered)
    (henc : b.VersionKeys) :
    (∃ m, m < 2 ^ 64 ∧ uint64ToBytes m ∈ b.keys ∧ m ≤ t
        ∧ (∀ v, v < 2 ^ 64 → uint64ToBytes v ∈ b.keys → v ≤ t → v ≤ m)
        ∧ reverseSeek t b.Cursor = .ok (m, none))
    ∨ ((∀ v, v < 2 ^ 64 → uint64ToBytes v ∈ b.keys → t < v)
        ∧ reverseSeek t b.Cursor = .ok (0, some (.noDataBeforeTimepoint t))) := by
  obtain ⟨es⟩ := b
  simp only [Bucket.Ordered, Bucket.keys, List.pairwise_map] at hord
  simp only [Bucket.VersionKeys, Bucket.keys] at henc
  simp only [Bucket.keys]
  -- per-entry facts
  have hval : ∀ (j : Nat) (hj : j < es.length),
      bigEndianValue es[j].1 < 2 ^ 64 ∧ es[j].1 = uint64ToBytes (bigEndianValue es[j].1)
        ∧ bytesToUint64 es[j].1 = .ok (bigEndianValue es[j].1) := fun j hj =>
    versionKey_value _ (henc _ (List.mem_map.mpr ⟨es[j], List.getElem_mem hj, rfl⟩))
  have hmono : ∀ (j k : Nat) (hj : j < es.length) (hk : k < es.length), j < k →
      bigEndianValue es[j].1 < bigEndianValue es[k].1 := by
    intro j k hj hk hjk
    have h := (List.pairwise_iff_getElem.mp hord) j k hj hk hjk
    rw [(hval j hj).2.1, (hval k hk).2.1] at h
    exact (compareBytes_uint64ToBytes_lt _ _ (hval j hj).1 (hval k hk).1).mp h
  have hmem : ∀ v, v < 2 ^ 64 → uint64ToBytes v ∈ es.map Prod.fst →
      ∃ (j : Nat) (hj : j < es.length), bigEndianValue es[j].1 = v := by
    intro v hv hm
    obtain ⟨e, he, hk⟩ := List.mem_map.mp hm
    obtain ⟨j, hj, rfl⟩ := List.mem_iff_getElem.mp he
    exact ⟨j, hj, by rw [hk, bigEndianValue_uint64ToBytes v hv]⟩
  have hin : ∀ (j : Nat) (hj : j < es.length),
      uint64ToBytes (bigEndianValue es[j].1) ∈ es.map Prod.fst := fun j hj => by
    rw [← (hval j hj).2.1]
    exact List.mem_map.mpr ⟨es[j], List.getElem_mem hj, rfl⟩
  -- the position the seek reaches
  generalize hi : es.findIdx (fun e => decide (compareBytes e.1 (uint64ToBytes t) ≠ .lt)) = i
  have hile : i ≤ es.length := hi ▸ List.findIdx_le_length _
  have hbefore : ∀ (j : Nat) (hj : j < es.length), j < i → bigEndianValue es[j].1 < t := by
    intro j hj hji
    have h0 : decide (compareBytes es[j].1 (uint64ToBytes t) ≠ .lt) = false := by
      subst hi
      exact List.not_of_lt_findIdx hji
    have h : compareBytes es[j].1 (uint64ToBytes t) = .lt := by simpa using h0
    rw [(hval j hj).2.1] at h
    exact (compareBytes_uint64ToBytes_lt _ _ (hval j hj).1 ht).mp h
  have hat : ∀ (hil : i < es.length), t ≤ bigEndianValue es[i].1 := by
    intro hil
    have h0 : decide (compareBytes es[i].1 (uint64ToBytes t) ≠ .lt) = true := by
      subst hi
      exact List.findIdx_of_getElem?_eq_some
        (p := fun e : Bytes × Bytes => decide (compareBytes e.1 (uint64ToBytes t) ≠ .lt))
        (List.getElem?_eq_getElem hil)
    have h : ¬ compareBytes es[i].1 (uint64ToBytes t) = .lt := by simpa using h0
    rw [(hval i hil).2.1, compareBytes_uint64ToBytes_lt _ _ (hval i hil).1 ht] at h
    omega
  -- the step back from position `i`
  have hprev : ∀ (hlate : ∀ (j : Nat) (hj : j < es.length), i ≤ j → t < bigEndianValue es[j].1),
      (∃ m, m < 2 ^ 64 ∧ uint64ToBytes m ∈ es.map Prod.fst ∧ m ≤ t
          ∧ (∀ v, v < 2 ^ 64 → uint64ToBytes v ∈ es.map Prod.fst → v ≤ t → v ≤ m)
          ∧ (match (Cursor.Prev ⟨⟨es⟩, some i⟩).1 with
              | none => (.ok (0, some (.noDataBeforeTimepoint t)) : Go (Nat × Option Error))
              | some version => (bytesToUint64 version.1).map (fun v => (v, none)))
            = .ok (m, none))
      ∨ ((∀ v, v < 2 ^ 64 → uint64ToBytes v ∈ es.map Prod.fst → t < v)
          ∧ (match (Cursor.Prev ⟨⟨es⟩, some i⟩).1 with
              | none => (.ok (0, some (.noDataBeforeTimepoint t)) : Go (Nat × Option Error))
              | some version => (bytesToUint64 version.1).map (fun v => (v, none)))
            = .ok (0, some (.noDataBeforeTimepoint t))) := by
    intro hlate
    cases i with
    | zero =>
      right
      refine ⟨?_, by simp [Cursor.Prev]⟩
      intro v hv hm
      obtain ⟨j, hj, rfl⟩ := hmem v hv hm
      exact hlate j hj (Nat.zero_le j)
    | succ n =>
      left
      have hn : n < es.length := by omega
      refine ⟨bigEndianValue es[n].1, (hval n hn).1, hin n hn,
        Nat.le_of_lt (hbefore n hn (Nat.lt_succ_self n)), ?_, ?_⟩
      · intro v hv hm hvt
        obtain ⟨j, hj, rfl⟩ := hmem v hv hm
        by_cases hjn : j ≤ n
        · rcases Nat.lt_or_eq_of_le hjn with h | h
          · exact Nat.le_of_lt (hmono j n hj hn h)
          · subst h; exact Nat.le_refl _
        · have := hlate j hj (by omega)
          omega
      · simp only [Cursor.Prev, List.getElem?_eq_getElem hn, (hval n hn).2.2]
        rfl
  simp only [reverseSeek, Bucket.Cursor, Cursor.Seek, hi]
  by_cases hil : i < es.length
  · rw [List.getElem?_eq_getElem hil]
    simp only [(hval i hil).2.2]
    by_cases heq : bigEndianValue es[i].1 = t
    · left
      refine ⟨t, ht, ?_, Nat.le_refl t, fun v _ _ h => h, by simp [heq]⟩
      rw [← heq]; exact hin i hil
    · simp only [heq, if_false]
      apply hprev
      intro j hj hij
      have h0 := hat hil
      rcases Nat.lt_or_eq_of_le hij with h | h
      · have := hmono i j hil hj h
        omega
      · subst h; omega
  · have hlen : i = es.length := by omega
    rw [List.getElem?_eq_none (by omega)]
    apply hprev
    intro j hj hij
    omega

/-! ## Buckets: lemmas -/

theorem lookup_insertEntry_self (key value : Bytes) (es : List (Bytes × Bytes)) :
    (insertEntry key value es).lookup key = some value := by
  induction es with
  | nil => simp [insertEntry, List.lookup]
  | cons e es ih =>
    obtain ⟨k, v⟩ := e
    simp only [insertEntry]
    cases h : compareBytes key k with
    | lt => simp [List.lookup]
    | eq => simp [List.lookup]
    | gt =>
      have hne : key ≠ k := fun heq => by
        rw [(compareBytes_eq_iff key k).mpr heq] at h; cases h
      simp only [List.lookup]
      rw [show (key == k) = false from by simpa using hne]
      exact ih

theorem lookup_insertEntry_ne (key value key' : Bytes) (es : List (Bytes × Bytes))
    (hne : key' ≠ key) : (insertEntry key value es).lookup key' = es.lookup key' := by
  induction es with
  | nil =>
    simp only [insertEntry, List.lookup]
    rw [show (key' == key) = false from by simpa using hne]
  | cons e es ih =>
    obtain ⟨k, v⟩ := e
    simp only [insertEntry]
    cases h : compareBytes key k with
    | lt =>
      simp only [List.lookup]
      rw [show (key' == key) = false from by simpa using hne]
    | eq =>
      have hk : key = k := (compareBytes_eq_iff key k).mp h
      subst hk
      simp only [List.lookup]
      rw [show (key' == key) = false from by simpa using hne]
    | gt =>
      simp only [List.lookup]
      rw [ih]

theorem mem_keys_insertEntry (key value k' : Bytes) (es : List (Bytes × Bytes)) :
    k' ∈ (insertEntry key value es).map Prod.fst ↔ k' = key ∨ k' ∈ es.map Prod.fst := by
  induction es with
  | nil => simp [insertEntry]
  | cons e es ih =>
    obtain ⟨k, v⟩ := e
    simp only [insertEntry]
    cases h : compareBytes key k with
    | lt => simp
    | eq =>
      have hk : key = k := (compareBytes_eq_iff key k).mp h
      subst hk
      simp
    | gt =>
      simp only [List.map_cons, List.mem_cons, ih]
      tauto

theorem pairwise_insertEntry (key value : Bytes) (es : List (Bytes × Bytes))
    (hord : (es.map Prod.fst).Pairwise (fun k k' => compareBytes k k' = .lt)) :
    ((insertEntry key value es).map Prod.fst).Pairwise (fun k k' => compareBytes k k' = .lt) := by
  induction es with
  | nil => simp [insertEntry]
  | cons e es ih =>
    obtain ⟨k, v⟩ := e
    simp only [List.map_cons, List.pairwise_cons] at hord
    simp only [insertEntry]
    cases h : compareBytes key k with
    | lt =>
      simp only [List.map_cons, List.pairwise_cons, List.mem_cons]
      refine ⟨?_, hord.1, hord.2⟩
      rintro k' (rfl | hk')
      · exact h
      · exact compareBytes_lt_trans _ _ _ h (hord.1 k' hk')
    | eq =>
      have hk : key = k := (compareBytes_eq_iff key k).mp h
      subst hk
      simp only [List.map_cons, List.pairwise_cons]
      exact hord
    | gt =>
      simp only [List.map_cons, List.pairwise_cons]
      refine ⟨?_, ih hord.2⟩
      intro k' hk'
      rcases (mem_keys_insertEntry key value k' es).mp hk' with rfl | hk'
      · exact (compareBytes_gt_iff _ _).mp h
      · exact hord.1 k' hk'

theorem compareBytes_self_ne_lt (k : Bytes) : compareBytes k k ≠ .lt := by
  rw [(compareBytes_eq_iff k k).mpr rfl]
  exact fun h => by cases h

theorem filter_key_of_pairwise (key : Bytes) (ks : List Bytes)
    (hord : ks.Pairwise (fun k k' => compareBytes k k' = .lt)) (hmem : key ∈ ks) :
    (ks.filter (fun k => decide (k = key))).length = 1 := by
  induction ks with
  | nil => simp at hmem
  | cons a rest ih =>
    simp only [List.pairwise_cons] at hord
    by_cases ha : a = key
    · subst ha
      have hnot : ∀ k ∈ rest, ¬ k = a := by
        intro k hk heq
        subst heq
        exact compareBytes_self_ne_lt k (hord.1 k hk)
      have hnil : rest.filter (fun k => decide (k = a)) = [] := by
        rw [List.filter_eq_nil_iff]
        intro k hk
        simpa using hnot k hk
      simp [List.filter_cons, hnil]
    · have hrest : key ∈ rest := by
        rcases List.mem_cons.mp hmem with h | h
        · exact absurd h.symm ha
        · exact h
      simp only [List.filter_cons, ha, decide_False]
      exact ih hord.2 hrest

/-! ## Accessors: lemmas -/

theorem DB.Bucket_setBucket_self (tx : DB) (name : String) (b : Storage.Bucket) :
    (tx.setBucket name b).Bucket name = some b := by
  simp [DB.Bucket, DB.setBucket]

theorem DB.Bucket_setBucket_ne (tx : DB) (name name' : String) (b : Storage.Bucket)
    (hne : name' ≠ name) : (tx.setBucket name b).Bucket name' = tx.Bucket name' := by
  simp [DB.Bucket, DB.setBucket, hne]

/-- A store whose payload encodes and whose transaction the engine carries through writes
the encoded payload at the key of the timepoint and returns nil. -/
theorem store_committed {α : Type} (name : String) (codec : Codec α) (db : DB) (data : α)
    (timepoint : Nat) (b : Bucket) (dataJson : Bytes) (hb : db.Bucket name = some b)
    (hm : codec.Marshal data = .ok dataJson) :
    store name codec db TxFault.none data timepoint
      = .ok (db.setBucket name ⟨insertEntry (uint64ToBytes timepoint) dataJson b.entries⟩,
          none) := by
  simp [store, DB.Update, hb, hm, TxFault.none, Bucket.Put, Except.map]

/-- A store that returns nil on a present bucket encoded its payload. -/
theorem store_returns_nil {α : Type} (name : String) (codec : Codec α) (db db' : DB)
    (fault : TxFault) (data : α) (timepoint : Nat)
    (h : store name codec db fault data timepoint = .ok (db', none)) :
    ∃ dataJson, codec.Marshal data = .ok dataJson := by
  cases hm : codec.Marshal data with
  | ok dataJson => exact ⟨dataJson, rfl⟩
  | error e => simp [store, DB.Update, hm, Except.map] at h

theorem getAll_of_bucket {α : Type} (name : String) (codec : Codec α) (db : DB)
    (version : Version) (b : Bucket) (hb : db.Bucket name = some b) :
    getAll name codec db version
      = match b.Get (uint64ToBytes version) with
        | none => .ok (codec.zero, some (.versionDoesNotExist version))
        | some data => .ok ((codec.Unmarshal data codec.zero).1,
            (codec.Unmarshal data codec.zero).2.map Error.json) := by
  simp [getAll, DB.View, hb]

theorem currentVersion_of_bucket (name : String) (db : DB) (timepoint : Nat) (b : Bucket)
    (hb : db.Bucket name = some b) :
    currentVersion name db timepoint = reverseSeek timepoint b.Cursor := by
  simp [currentVersion, DB.View, hb]


/-- The statement of reverse-seek correctness over any collection `S` of versions, given
by its membership predicate. -/
theorem reverseSeek_greatest (S : Nat → Prop) (b : Bucket) (t : Nat)
    (hS : ∀ v, S v → v < 2 ^ 64) (ht : t < 2 ^ 64) (hord : b.Ordered)
    (hkeys : ∀ k, k ∈ b.keys ↔ ∃ v, S v ∧ k = uint64ToBytes v) :
    ((∃ v, S v ∧ v ≤ t) →
        ∃ m, S m ∧ m ≤ t ∧ (∀ v, S v → v ≤ t → v ≤ m)
          ∧ reverseSeek t b.Cursor = .ok (m, none))
    ∧ (S t → reverseSeek t b.Cursor = .ok (t, none))
    ∧ ((¬ ∃ v, S v ∧ v ≤ t) →
        reverseSeek t b.Cursor = .ok (0, some (.noDataBeforeTimepoint t))) := by
  have henc : b.VersionKeys := by
    intro k hk
    obtain ⟨v, hv, rfl⟩ := (hkeys k).mp hk
    exact ⟨v, hS v hv, rfl⟩
  have hin : ∀ v, S v → uint64ToBytes v ∈ b.keys := fun v hv =>
    (hkeys _).mpr ⟨v, hv, rfl⟩
  have hout : ∀ v, v < 2 ^ 64 → uint64ToBytes v ∈ b.keys → S v := by
    intro v hv hk
    obtain ⟨w, hw, he⟩ := (hkeys _).mp hk
    rw [uint64ToBytes_injective v w hv (hS w hw) he]
    exact hw
  rcases reverseSeek_spec b t ht hord henc with ⟨m, hm, hmk, hmt, hmax, hr⟩ | ⟨hall, hr⟩
  · have hmS : S m := hout m hm hmk
    have hmax' : ∀ v, S v → v ≤ t → v ≤ m := fun v hv hvt => hmax v (hS v hv) (hin v hv) hvt
    refine ⟨fun _ => ⟨m, hmS, hmt, hmax', hr⟩, ?_, ?_⟩
    · intro htS
      have h1 := hmax' t htS (Nat.le_refl t)
      have hmt' : m = t := Nat.le_antisymm hmt h1
      rw [hr, hmt']
    · intro hno
      exact absurd ⟨m, hmS, hmt⟩ hno
  · have hnone : ∀ v, S v → t < v := fun v hv => hall v (hS v hv) (hin v hv)
    refine ⟨?_, ?_, fun _ => hr⟩
    · rintro ⟨v, hv, hvt⟩
      have := hnone v hv
      omega
    · intro htS
      have := hnone t htS
      omega

/-! ## Sequences of store calls: lemmas -/

theorem Domain.bucket_injective (D D' : Domain) (h : D.bucket = D'.bucket) : D = D' := by
  cases D <;> cases D' <;> first | rfl | (exact absurd h (by decide))

theorem Domain.Store_eq {α : Type} (D : Domain) (codec : Codec α) (db : DB) (fault : TxFault)
    (data : α) (timepoint : Nat) :
    D.Store codec db fault data timepoint = store D.bucket codec db fault data timepoint := by
  cases D <;> rfl

theorem Domain.CurrentVersion_eq (D : Domain) (db : DB) (timepoint : Nat) :
    D.CurrentVersion db timepoint = currentVersion D.bucket db timepoint := by
  cases D <;> rfl

theorem timepointsOf_cons {P : Domain → Type} (D : Domain) (c : StoreCall P)
    (rest : List (StoreCall P)) (T : Nat) :
    T ∈ timepointsOf D (c :: rest)
      ↔ (c.domain = D ∧ T = c.timepoint) ∨ T ∈ timepointsOf D rest := by
  simp only [timepointsOf, List.filter_cons]
  by_cases h : c.domain = D
  · simp [h]
  · simp [h]

/-- A sequence of store calls whose payloads encode, from a state with the four buckets
present and ordered: every call returns nil, and each domain's bucket ends up ordered,
holding the keys it had and the keys of the timepoints stored in that domain. -/
theorem runStores_keys {P : Domain → Type} (codec : (D : Domain) → Codec (P D))
    (calls : List (StoreCall P)) (db : DB)
    (hpres : ∀ D : Domain, ∃ b, db.Bucket D.bucket = some b ∧ b.Ordered)
    (henc : ∀ c ∈ calls, ∃ data, (codec c.domain).Marshal c.data = .ok data) :
    ∃ db', runStores codec db calls = .ok (db', calls.map (fun _ => none))
      ∧ ∀ D : Domain, ∃ b b', db.Bucket D.bucket = some b ∧ db'.Bucket D.bucket = some b'
          ∧ b'.Ordered
          ∧ ∀ k, k ∈ b'.keys ↔ k ∈ b.keys ∨ ∃ T ∈ timepointsOf D calls, k = uint64ToBytes T := by
  induction calls generalizing db with
  | nil =>
    refine ⟨db, rfl, fun D => ?_⟩
    obtain ⟨b, hb, ho⟩ := hpres D
    exact ⟨b, b, hb, hb, ho, fun k => by simp [timepointsOf]⟩
  | cons c rest ih =>
    obtain ⟨bc, hbc, hoc⟩ := hpres c.domain
    obtain ⟨data, hm⟩ := henc c (List.mem_cons_self c rest)
    have hstore := store_committed c.domain.bucket (codec c.domain) db c.data c.timepoint bc
      data hbc hm
    have hpres1 : ∀ D : Domain, ∃ b,
        (db.setBucket c.domain.bucket
          ⟨insertEntry (uint64ToBytes c.timepoint) data bc.entries⟩).Bucket D.bucket = some b
        ∧ b.Ordered := by
      intro D
      by_cases hD : D = c.domain
      · subst hD
        exact ⟨_, DB.Bucket_setBucket_self _ _ _, pairwise_insertEntry _ _ _ hoc⟩
      · obtain ⟨b, hb, ho⟩ := hpres D
        have hne : D.bucket ≠ c.domain.bucket := fun h => hD (Domain.bucket_injective _ _ h)
        exact ⟨b, by rw [DB.Bucket_setBucket_ne _ _ _ _ hne]; exact hb, ho⟩
    obtain ⟨db', hrun, hkeys⟩ := ih _ hpres1
      (fun c' hc' => henc c' (List.mem_cons_of_mem c hc'))
    refine ⟨db', ?_, fun D => ?_⟩
    · simp only [runStores, Domain.Store_eq, hstore, hrun, List.map_cons]
    · obtain ⟨b1, b', hb1, hb', ho', hk'⟩ := hkeys D
      obtain ⟨b, hb, _⟩ := hpres D
      refine ⟨b, b', hb, hb', ho', fun k => ?_⟩
      rw [hk' k]
      by_cases hD : D = c.domain
      · subst hD
        rw [DB.Bucket_setBucket_self] at hb1
        have hb1' := Option.some.inj hb1
        have hbb : bc = b := Option.some.inj (hbc.symm.trans hb)
        subst hbb
        rw [← hb1']
        simp only [Bucket.keys, mem_keys_insertEntry]
        constructor
        · rintro ((h | h) | ⟨T, hT, h⟩)
          · exact Or.inr ⟨c.timepoint, (timepointsOf_cons _ c rest _).mpr (Or.inl ⟨rfl, rfl⟩), h⟩
          · exact Or.inl h
          · exact Or.inr ⟨T, (timepointsOf_cons _ c rest T).mpr (Or.inr hT), h⟩
        · rintro (h | ⟨T, hT, h⟩)
          · exact Or.inl (Or.inr h)
          · rcases (timepointsOf_cons _ c rest T).mp hT with ⟨_, hTc⟩ | hT'
            · subst hTc; exact Or.inl (Or.inl h)
            · exact Or.inr ⟨T, hT', h⟩
      · have hne : D.bucket ≠ c.domain.bucket := fun h => hD (Domain.bucket_injective _ _ h)
        rw [DB.Bucket_setBucket_ne _ _ _ _ hne, hb] at hb1
        have hbb := Option.some.inj hb1
        subst hbb
        constructor
        · rintro (h | ⟨T, hT, h⟩)
          · exact Or.inl h
          · exact Or.inr ⟨T, (timepointsOf_cons _ c rest T).mpr (Or.inr hT), h⟩
        · rintro (h | ⟨T, hT, h⟩)
          · exact Or.inl h
          · rcases (timepointsOf_cons _ c rest T).mp hT with ⟨hc, _⟩ | hT'
            · exact absurd hc.symm hD
            · exact Or.inr ⟨T, hT', h⟩

theorem freshStore_bucket (D : Domain) : freshStore.Bucket D.bucket = some ⟨[]⟩ := by
  cases D <;> decide

/-! ## Claims -/

/-- C1. `reverseSeek` returns the greatest stored version at or before the timepoint: for a
finite set `S` of `uint64` versions, an (ordered) bucket whose keys are exactly the
encodings of the members of `S`, a fresh cursor on it and a timepoint `t`: when some member
of `S` is at most `t` the call succeeds with the greatest such member (so with `t` itself
when `t` is in `S`), and when none is it returns `0` and the "no data before timepoint"
error. -/
theorem reverseSeek_greatest_version (S : Finset Nat) (b : Bucket) (t : Nat)
    (hS : ∀ v ∈ S, v < 2 ^ 64) (ht : t < 2 ^ 64) (hord : b.Ordered)
    (hkeys : ∀ k, k ∈ b.keys ↔ ∃ v ∈ S, k = uint64ToBytes v) :
    ((∃ v ∈ S, v ≤ t) →
        ∃ m ∈ S, m ≤ t ∧ (∀ v ∈ S, v ≤ t → v ≤ m)
          ∧ reverseSeek t b.Cursor = .ok (m, none))
    ∧ (t ∈ S → reverseSeek t b.Cursor = .ok (t, none))
    ∧ ((¬ ∃ v ∈ S, v ≤ t) →
        reverseSeek t b.Cursor = .ok (0, some (.noDataBeforeTimepoint t))) :=
  reverseSeek_greatest (fun v => v ∈ S) b t hS ht hord hkeys

/-- C1, at `S = {10, 20, 30}`: the hypotheses hold there, and the four lookups of the spec
evaluate to 20, 20, 30 and the error. -/
theorem reverseSeek_greatest_version_witness :
    (((∃ v ∈ ({10, 20, 30} : Finset Nat), v ≤ 25) →
        ∃ m ∈ ({10, 20, 30} : Finset Nat), m ≤ 25
          ∧ (∀ v ∈ ({10, 20, 30} : Finset Nat), v ≤ 25 → v ≤ m)
          ∧ reverseSeek 25 (bucketOfVersions [10, 20, 30]).Cursor = .ok (m, none))
      ∧ (25 ∈ ({10, 20, 30} : Finset Nat) →
          reverseSeek 25 (bucketOfVersions [10, 20, 30]).Cursor = .ok (25, none))
      ∧ ((¬ ∃ v ∈ ({10, 20, 30} : Finset Nat), v ≤ 25) →
          reverseSeek 25 (bucketOfVersions [10, 20, 30]).Cursor
            = .ok (0, some (.noDataBeforeTimepoint 25))))
    ∧ reverseSeek 25 (bucketOfVersions [10, 20, 30]).Cursor = .ok (20, none)
    ∧ reverseSeek 20 (bucketOfVersions [10, 20, 30]).Cursor = .ok (20, none)
    ∧ reverseSeek 10 (bucketOfVersions [10, 20, 30]).Cursor = .ok (10, none)
    ∧ reverseSeek 100 (bucketOfVersions [10, 20, 30]).Cursor = .ok (30, none)
    ∧ reverseSeek 5 (bucketOfVersions [10, 20, 30]).Cursor
        = .ok (0, some (.noDataBeforeTimepoint 5)) :=
  ⟨reverseSeek_greatest_version {10, 20, 30} (bucketOfVersions [10, 20, 30]) 25
      (by decide) (by decide) (by decide)
      (by intro k; simp [bucketOfVersions, Bucket.keys, eq_comm]),
    by decide, by decide, by decide, by decide, by decide⟩


/-- C6. The version codec is a fixed-width round trip: the encoding of a `uint64` has
exactly eight bytes, they are its big-endian base-256 digits, and decoding gives the
value back. -/
theorem uint64ToBytes_roundtrip (v : Nat) (hv : v < 2 ^ 64) :
    (uint64ToBytes v).length = 8
    ∧ (uint64ToBytes v).map Fin.val = (List.range 8).map (fun i => v / 256 ^ (7 - i) % 256)
    ∧ bigEndianValue (uint64ToBytes v) = v
    ∧ bytesToUint64 (uint64ToBytes v) = .ok v := by
  refine ⟨rfl, ?_, bigEndianValue_uint64ToBytes v hv, bytesToUint64_uint64ToBytes v hv⟩
  have hr : List.range 8 = [0, 1, 2, 3, 4, 5, 6, 7] := by decide
  rw [hr]
  simp [uint64ToBytes, byte, Nat.shiftRight_eq_div_pow]

/-- C6, at `v = 258`. -/
theorem uint64ToBytes_roundtrip_witness :
    258 < 2 ^ 64
    ∧ (uint64ToBytes 258).length = 8
    ∧ (uint64ToBytes 258).map Fin.val
        = (List.range 8).map (fun i => 258 / 256 ^ (7 - i) % 256)
    ∧ bigEndianValue (uint64ToBytes 258) = 258
    ∧ bytesToUint64 (uint64ToBytes 258) = .ok 258 :=
  ⟨by decide, uint64ToBytes_roundtrip 258 (by decide)⟩

/-- C7. The version encoding preserves order: for `uint64` values `u` and `v`, `u < v`
exactly when the encoding of `u` is smaller than that of `v` for `bytes.Compare`, and
`u = v` exactly when the encodings are equal. -/
theorem uint64ToBytes_order_preserving (u v : Nat) (hu : u < 2 ^ 64) (hv : v < 2 ^ 64) :
    (u < v ↔ compareBytes (uint64ToBytes u) (uint64ToBytes v) = .lt)
    ∧ (u = v ↔ uint64ToBytes u = uint64ToBytes v) :=
  ⟨(compareBytes_uint64ToBytes_lt u v hu hv).symm,
    fun h => by rw [h], uint64ToBytes_injective u v hu hv⟩

/-- C7, at `u = 255`, `v = 256`, where the low byte alone would order the other way. -/
theorem uint64ToBytes_order_preserving_witness :
    255 < 2 ^ 64 ∧ 256 < 2 ^ 64
    ∧ (255 < 256 ↔ compareBytes (uint64ToBytes 255) (uint64ToBytes 256) = .lt)
    ∧ (255 = 256 ↔ uint64ToBytes 255 = uint64ToBytes 256) :=
  ⟨by decide, by decide, uint64ToBytes_order_preserving 255 256 (by decide) (by decide)⟩

/-- C8, refuted as stated. `bytesToUint64` has no error result: on a nine-byte string it
returns a `uint64` (the value of the first eight bytes), and on a seven-byte string it
panics with an index out of range; neither is a `MalformedKey` failure. -/
theorem bytesToUint64_malformed_counterexample :
    ([0, 0, 0, 0, 0, 0, 0, 1, 9] : Bytes).length ≠ 8
    ∧ bytesToUint64 [0, 0, 0, 0, 0, 0, 0, 1, 9] = .ok 1
    ∧ ([0, 0, 0, 0, 0, 0, 1] : Bytes).length ≠ 8
    ∧ bytesToUint64 [0, 0, 0, 0, 0, 0, 1] = .error Panic.indexOutOfRange := by
  decide

/-- C8, amended. `bytesToUint64` only needs eight bytes to be there: on a byte string
shorter than eight bytes it panics with an index out of range, and on any other it returns
the big-endian value of the first eight bytes, whatever follows them. -/
theorem bytesToUint64_by_length (b : Bytes) :
    bytesToUint64 b
      = if b.length < 8 then .error Panic.indexOutOfRange
        else .ok (bigEndianValue (b.take 8)) := by
  rcases b with _ | ⟨b0, _ | ⟨b1, _ | ⟨b2, _ | ⟨b3, _ | ⟨b4, _ | ⟨b5, _ | ⟨b6, _ | ⟨b7, r⟩⟩⟩⟩⟩⟩⟩⟩
  case cons.cons.cons.cons.cons.cons.cons.cons =>
    rw [bytesToUint64_eight]
    have hlen : ¬ (b0 :: b1 :: b2 :: b3 :: b4 :: b5 :: b6 :: b7 :: r).length < 8 := by
      simp only [List.length_cons]
      omega
    rw [if_neg hlen]
    simp
  all_goals simp [bytesToUint64]


/-- Store then get on one bucket, when the engine carries the transaction through: the
get returns the payload. -/
theorem store_getAll_committed {α : Type} (name : String) (codec : Codec α) (db : DB)
    (b : Bucket) (p : α) (timepoint : Nat) (hb : db.Bucket name = some b)
    (hrt : codec.RoundTrip p) :
    ∃ db', store name codec db TxFault.none p timepoint = .ok (db', none)
      ∧ getAll name codec db' timepoint = .ok (p, none) := by
  obtain ⟨data, hm, hu⟩ := hrt
  refine ⟨_, store_committed name codec db p timepoint b data hb hm, ?_⟩
  rw [getAll_of_bucket name codec _ timepoint _ (DB.Bucket_setBucket_self db name _)]
  simp [Bucket.Get, lookup_insertEntry_self, hu]

/-- C2, on the code. With the four buckets present and a payload that round-trips, the
engine fails the commit of the write transaction: `StorePrice` returns nil all the same
(the result of `db.Update` is dropped), and the following `GetAllPrices` at that version
returns the "doesn't exist" error instead of the payload; `StoreRate` and `GetAllRates`
likewise. -/
theorem StorePrice_GetAllPrices_failed_commit :
    rawCodec.Unmarshal [1, 2] rawCodec.zero = ([1, 2], none)
    ∧ (StorePrice rawCodec freshStore ⟨none, some (.bolt 1)⟩ [1, 2] 7).map Prod.snd
        = .ok none
    ∧ (StorePrice rawCodec freshStore ⟨none, some (.bolt 1)⟩ [1, 2] 7).bind
        (fun r => GetAllPrices rawCodec r.1 7) = .ok ([], some (.versionDoesNotExist 7))
    ∧ (StoreRate rawCodec freshStore ⟨none, some (.bolt 1)⟩ [1, 2] 7).map Prod.snd
        = .ok none
    ∧ (StoreRate rawCodec freshStore ⟨none, some (.bolt 1)⟩ [1, 2] 7).bind
        (fun r => GetAllRates rawCodec r.1 7) = .ok ([], some (.versionDoesNotExist 7)) := by
  decide

/-- C3, on the code. With the four buckets present and empty, a payload that round-trips
and an engine that carries the transaction through, `StoreBalance` returns nil and the
snapshot is in the balances bucket, but `GetAllBalances` reads the prices bucket and
returns the "doesn't exist" error; `StoreEBalance` and `GetAllEBalances` likewise. -/
theorem StoreBalance_GetAllBalances_wrong_bucket :
    (StoreBalance rawCodec freshStore TxFault.none [1, 2] 7).map
        (fun r => (r.2, (r.1.Bucket BALANCE_BUCKET).map (fun b => b.Get (uint64ToBytes 7))))
      = .ok (none, some (some [1, 2]))
    ∧ (StoreBalance rawCodec freshStore TxFault.none [1, 2] 7).bind
        (fun r => GetAllBalances rawCodec r.1 7) = .ok ([], some (.versionDoesNotExist 7))
    ∧ (StoreEBalance rawCodec freshStore TxFault.none [1, 2] 7).map
        (fun r => (r.2,
          (r.1.Bucket EXCHANGE_BALANCE_BUCKET).map (fun b => b.Get (uint64ToBytes 7))))
      = .ok (none, some (some [1, 2]))
    ∧ (StoreEBalance rawCodec freshStore TxFault.none [1, 2] 7).bind
        (fun r => GetAllEBalances rawCodec r.1 7)
      = .ok ([], some (.versionDoesNotExist 7)) := by
  decide

/-- C4, on the code. A store in the prices domain changes what the get-all of the balances
domain and of the exchange-balances domain return at that version: before `StorePrice` both
return the "doesn't exist" error, after it both return what was stored as prices. -/
theorem StorePrice_changes_GetAllBalances :
    GetAllBalances rawCodec freshStore 7 = .ok ([], some (.versionDoesNotExist 7))
    ∧ (StorePrice rawCodec freshStore TxFault.none [1, 2] 7).bind
        (fun r => GetAllBalances rawCodec r.1 7) = .ok ([1, 2], none)
    ∧ GetAllEBalances rawCodec freshStore 7 = .ok ([], some (.versionDoesNotExist 7))
    ∧ (StorePrice rawCodec freshStore TxFault.none [1, 2] 7).bind
        (fun r => GetAllEBalances rawCodec r.1 7) = .ok ([1, 2], none) := by
  decide

/-- C9. Overwrite is last-write-wins and adds no second snapshot: when `StorePrice(P1, T)`
and then `StorePrice(P2, T)` both return nil, the engine carrying both transactions
through, `GetAllPrices` at `T` returns `P2`, the keys of the prices bucket are those it had
before together with the key of `T`, and exactly one of them is the key of `T`. -/
theorem StorePrice_overwrite {α : Type} (codec : Codec α) (db db1 db2 : DB) (P1 P2 : α)
    (T : Nat) (hord : ∀ b, db.Bucket PRICE_BUCKET = some b → b.Ordered)
    (hrt : codec.RoundTrip P2)
    (h1 : StorePrice codec db TxFault.none P1 T = .ok (db1, none))
    (h2 : StorePrice codec db1 TxFault.none P2 T = .ok (db2, none)) :
    GetAllPrices codec db2 T = .ok (P2, none)
    ∧ ∃ b b2, db.Bucket PRICE_BUCKET = some b ∧ db2.Bucket PRICE_BUCKET = some b2
        ∧ (∀ k, k ∈ b2.keys ↔ k = uint64ToBytes T ∨ k ∈ b.keys)
        ∧ (b2.keys.filter (fun k => decide (k = uint64ToBytes T))).length = 1 := by
  obtain ⟨d1, hm1⟩ := store_returns_nil _ _ _ _ _ _ _ h1
  obtain ⟨d2, hm2, hu2⟩ := hrt
  cases hb : db.Bucket PRICE_BUCKET with
  | none => simp [StorePrice, store, DB.Update, hb, hm1, Except.map] at h1
  | some b =>
    have e1 := store_committed PRICE_BUCKET codec db P1 T b d1 hb hm1
    simp only [StorePrice, GetAllPrices] at h1 h2 ⊢
    rw [e1] at h1
    have hdb1 : db1 = db.setBucket PRICE_BUCKET
        ⟨insertEntry (uint64ToBytes T) d1 b.entries⟩ := by
      simp only [Except.ok.injEq, Prod.mk.injEq, and_true] at h1
      exact h1.symm
    have hb1 := DB.Bucket_setBucket_self db PRICE_BUCKET
      ⟨insertEntry (uint64ToBytes T) d1 b.entries⟩
    rw [← hdb1] at hb1
    have e2 := store_committed PRICE_BUCKET codec db1 P2 T _ d2 hb1 hm2
    rw [e2] at h2
    have hdb2 : db2 = db1.setBucket PRICE_BUCKET
        ⟨insertEntry (uint64ToBytes T) d2 (insertEntry (uint64ToBytes T) d1 b.entries)⟩ := by
      simp only [Except.ok.injEq, Prod.mk.injEq, and_true] at h2
      exact h2.symm
    have hb2 := DB.Bucket_setBucket_self db1 PRICE_BUCKET
      ⟨insertEntry (uint64ToBytes T) d2 (insertEntry (uint64ToBytes T) d1 b.entries)⟩
    rw [← hdb2] at hb2
    have hkeys : ∀ k, k ∈ (insertEntry (uint64ToBytes T) d2
          (insertEntry (uint64ToBytes T) d1 b.entries)).map Prod.fst
        ↔ k = uint64ToBytes T ∨ k ∈ b.entries.map Prod.fst := by
      intro k
      rw [mem_keys_insertEntry, mem_keys_insertEntry]
      tauto
    refine ⟨?_, b, _, rfl, hb2, hkeys, ?_⟩
    · rw [getAll_of_bucket PRICE_BUCKET codec db2 T _ hb2]
      simp [Bucket.Get, lookup_insertEntry_self, hu2]
    · apply filter_key_of_pairwise
      · exact pairwise_insertEntry _ _ _ (pairwise_insertEntry _ _ _ (hord b hb))
      · exact (hkeys _).mpr (Or.inl rfl)

/-- C9, on a prices bucket that already holds versions 5 and 9, storing `[3]` and then
`[4]` at timepoint 7. -/
theorem StorePrice_overwrite_witness :
    GetAllPrices rawCodec
        (((freshStore.setBucket PRICE_BUCKET (bucketOfVersions [5, 9])).setBucket PRICE_BUCKET
            ⟨insertEntry (uint64ToBytes 7) [3] (bucketOfVersions [5, 9]).entries⟩).setBucket
          PRICE_BUCKET
            ⟨insertEntry (uint64ToBytes 7) [4] (Bucket.mk
              (insertEntry (uint64ToBytes 7) [3] (bucketOfVersions [5, 9]).entries)).entries⟩)
        7
      = .ok ([4], none)
    ∧ ∃ b b2, (freshStore.setBucket PRICE_BUCKET (bucketOfVersions [5, 9])).Bucket PRICE_BUCKET
          = some b
        ∧ (((freshStore.setBucket PRICE_BUCKET (bucketOfVersions [5, 9])).setBucket PRICE_BUCKET
            ⟨insertEntry (uint64ToBytes 7) [3] (bucketOfVersions [5, 9]).entries⟩).setBucket
          PRICE_BUCKET
            ⟨insertEntry (uint64ToBytes 7) [4] (Bucket.mk
              (insertEntry (uint64ToBytes 7) [3] (bucketOfVersions [5, 9]).entries)).entries⟩).Bucket
            PRICE_BUCKET = some b2
        ∧ (∀ k, k ∈ b2.keys ↔ k = uint64ToBytes 7 ∨ k ∈ b.keys)
        ∧ (b2.keys.filter (fun k => decide (k = uint64ToBytes 7))).length = 1 :=
  StorePrice_overwrite rawCodec
    (freshStore.setBucket PRICE_BUCKET (bucketOfVersions [5, 9])) _ _ [3] [4] 7
    (by
      intro b hb
      rw [DB.Bucket_setBucket_self] at hb
      have hb' : bucketOfVersions [5, 9] = b := Option.some.inj hb
      rw [← hb']
      decide)
    ⟨[4], rfl, rfl⟩
    (store_committed PRICE_BUCKET rawCodec _ [3] 7 _ [3] (DB.Bucket_setBucket_self _ _ _) rfl)
    (store_committed PRICE_BUCKET rawCodec _ [4] 7 _ [4] (DB.Bucket_setBucket_self _ _ _) rfl)

/-- C10, on the code. The engine fails the put, or fails the commit, inside each of the
four store methods: every one of them returns nil, and no snapshot is in the domain's
bucket at the key of the timepoint. -/
theorem Store_returns_nil_on_engine_failure :
    (StorePrice rawCodec freshStore ⟨some (.bolt 2), none⟩ [1, 2] 7).map
        (fun r => (r.2, (r.1.Bucket PRICE_BUCKET).map (fun b => b.Get (uint64ToBytes 7))))
      = .ok (none, some none)
    ∧ (StorePrice rawCodec freshStore ⟨none, some (.bolt 1)⟩ [1, 2] 7).map
        (fun r => (r.2, (r.1.Bucket PRICE_BUCKET).map (fun b => b.Get (uint64ToBytes 7))))
      = .ok (none, some none)
    ∧ (StoreBalance rawCodec freshStore ⟨some (.bolt 2), none⟩ [1, 2] 7).map
        (fun r => (r.2, (r.1.Bucket BALANCE_BUCKET).map (fun b => b.Get (uint64ToBytes 7))))
      = .ok (none, some none)
    ∧ (StoreBalance rawCodec freshStore ⟨none, some (.bolt 1)⟩ [1, 2] 7).map
        (fun r => (r.2, (r.1.Bucket BALANCE_BUCKET).map (fun b => b.Get (uint64ToBytes 7))))
      = .ok (none, some none)
    ∧ (StoreEBalance rawCodec freshStore ⟨some (.bolt 2), none⟩ [1, 2] 7).map
        (fun r => (r.2,
          (r.1.Bucket EXCHANGE_BALANCE_BUCKET).map (fun b => b.Get (uint64ToBytes 7))))
      = .ok (none, some none)
    ∧ (StoreEBalance rawCodec freshStore ⟨none, some (.bolt 1)⟩ [1, 2] 7).map
        (fun r => (r.2,
          (r.1.Bucket EXCHANGE_BALANCE_BUCKET).map (fun b => b.Get (uint64ToBytes 7))))
      = .ok (none, some none)
    ∧ (StoreRate rawCodec freshStore ⟨some (.bolt 2), none⟩ [1, 2] 7).map
        (fun r => (r.2, (r.1.Bucket RATE_BUCKET).map (fun b => b.Get (uint64ToBytes 7))))
      = .ok (none, some none)
    ∧ (StoreRate rawCodec freshStore ⟨none, some (.bolt 1)⟩ [1, 2] 7).map
        (fun r => (r.2, (r.1.Bucket RATE_BUCKET).map (fun b => b.Get (uint64ToBytes 7))))
      = .ok (none, some none) :=
  ⟨by decide, by decide, by decide, by decide, by decide, by decide, by decide, by decide⟩


/-- C5. `Current*Version` reflects exactly the timepoints stored in its own domain: from a
freshly initialised store (four empty buckets), a finite sequence of store calls with
`uint64` timepoints whose payloads encode, each in a transaction the engine carries
through, runs to a state with every call returning nil; there, for each domain `D` and
timepoint `t`, the version lookup of `D` returns the greatest timepoint stored in `D` that
is at most `t`, with no error, when there is one, and returns an error (with version 0)
when there is none. -/
theorem CurrentVersion_after_stores {P : Domain → Type} (codec : (D : Domain) → Codec (P D))
    (calls : List (StoreCall P))
    (hT : ∀ c ∈ calls, c.timepoint < 2 ^ 64)
    (henc : ∀ c ∈ calls, ∃ data, (codec c.domain).Marshal c.data = .ok data) :
    ∃ db, runStores codec freshStore calls = .ok (db, calls.map (fun _ => none))
      ∧ ∀ (D : Domain) (t : Nat), t < 2 ^ 64 →
        ((∃ T ∈ timepointsOf D calls, T ≤ t) →
            ∃ m ∈ timepointsOf D calls, m ≤ t ∧ (∀ T ∈ timepointsOf D calls, T ≤ t → T ≤ m)
              ∧ D.CurrentVersion db t = .ok (m, none))
        ∧ ((¬ ∃ T ∈ timepointsOf D calls, T ≤ t) →
            D.CurrentVersion db t = .ok (0, some (.noDataBeforeTimepoint t))) := by
  obtain ⟨db, hrun, hkeys⟩ := runStores_keys codec calls freshStore
    (fun D => ⟨⟨[]⟩, freshStore_bucket D, by simp [Bucket.Ordered, Bucket.keys]⟩) henc
  refine ⟨db, hrun, fun D t ht => ?_⟩
  obtain ⟨b, b', hb, hb', ho', hk'⟩ := hkeys D
  rw [freshStore_bucket] at hb
  have hbe := Option.some.inj hb
  subst hbe
  have hS : ∀ v, v ∈ timepointsOf D calls → v < 2 ^ 64 := by
    intro v hv
    simp only [timepointsOf, List.mem_map, List.mem_filter] at hv
    obtain ⟨c, ⟨hc, _⟩, rfl⟩ := hv
    exact hT c hc
  have hkv : ∀ k, k ∈ b'.keys ↔ ∃ v, v ∈ timepointsOf D calls ∧ k = uint64ToBytes v := by
    intro k
    rw [hk' k]
    simp [Bucket.keys]
  have h := reverseSeek_greatest (fun v => v ∈ timepointsOf D calls) b' t hS ht ho' hkv
  rw [Domain.CurrentVersion_eq, currentVersion_of_bucket D.bucket db t b' hb']
  exact ⟨h.1, h.2.2⟩

/-- C5, at three store calls (prices at 10, balances at 15, prices at 30). -/
theorem CurrentVersion_after_stores_witness :
    ∃ db, runStores (fun _ => rawCodec) freshStore sampleCalls
        = .ok (db, sampleCalls.map (fun _ => none))
      ∧ ∀ (D : Domain) (t : Nat), t < 2 ^ 64 →
        ((∃ T ∈ timepointsOf D sampleCalls, T ≤ t) →
            ∃ m ∈ timepointsOf D sampleCalls, m ≤ t
              ∧ (∀ T ∈ timepointsOf D sampleCalls, T ≤ t → T ≤ m)
              ∧ D.CurrentVersion db t = .ok (m, none))
        ∧ ((¬ ∃ T ∈ timepointsOf D sampleCalls, T ≤ t) →
            D.CurrentVersion db t = .ok (0, some (.noDataBeforeTimepoint t))) :=
  CurrentVersion_after_stores (fun _ => rawCodec) sampleCalls
    (by
      intro c hc
      simp only [sampleCalls, List.mem_cons, List.mem_singleton, List.not_mem_nil,
        or_false] at hc
      rcases hc with rfl | rfl | rfl <;> decide)
    (fun c _ => ⟨c.data, rfl⟩)

/-- The lookups after the three sample calls, evaluated: prices at 20 and at 5, balances
at 20, rates at 20. -/
theorem CurrentVersion_after_sampleCalls :
    (runStores (fun _ => rawCodec) freshStore sampleCalls).bind
        (fun r => CurrentPriceVersion r.1 20) = .ok (10, none)
    ∧ (runStores (fun _ => rawCodec) freshStore sampleCalls).bind
        (fun r => CurrentPriceVersion r.1 5) = .ok (0, some (.noDataBeforeTimepoint 5))
    ∧ (runStores (fun _ => rawCodec) freshStore sampleCalls).bind
        (fun r => CurrentBalanceVersion r.1 20) = .ok (15, none)
    ∧ (runStores (fun _ => rawCodec) freshStore sampleCalls).bind
        (fun r => CurrentRateVersion r.1 20) = .ok (0, some (.noDataBeforeTimepoint 20)) :=
  ⟨by decide, by decide, by decide, by decide⟩


/-! ## Construction, frame and lookup: lemmas -/

theorem lookup_of_mem_keys (key : Bytes) (es : List (Bytes × Bytes))
    (h : key ∈ es.map Prod.fst) : ∃ data, es.lookup key = some data := by
  induction es with
  | nil => simp at h
  | cons e es ih =>
    obtain ⟨k, v⟩ := e
    by_cases hk : key = k
    · subst hk
      exact ⟨v, by simp [List.lookup]⟩
    · have hmem : key ∈ es.map Prod.fst := by
        rcases List.mem_cons.mp h with h' | h'
        · exact absurd h' hk
        · exact h'
      obtain ⟨d, hd⟩ := ih hmem
      refine ⟨d, ?_⟩
      simp only [List.lookup]
      rw [show (key == k) = false from by simpa using hk]
      exact hd

/-- What a store can do to the database: nothing, or replace the named bucket by itself
with one entry inserted at the key of the timepoint. -/
theorem store_cases {α : Type} (name : String) (codec : Codec α) (db db' : DB)
    (fault : TxFault) (data : α) (timepoint : Nat) (err : Option Error)
    (h : store name codec db fault data timepoint = .ok (db', err)) :
    db' = db ∨ ∃ b dataJson, db.Bucket name = some b
      ∧ db' = db.setBucket name ⟨insertEntry (uint64ToBytes timepoint) dataJson b.entries⟩ := by
  obtain ⟨fput, fcommit⟩ := fault
  cases hm : codec.Marshal data with
  | error e =>
    left
    simp [store, DB.Update, hm, Except.map] at h
    exact h.1.symm
  | ok dataJson =>
    cases hb : db.Bucket name with
    | none => simp [store, DB.Update, hm, hb, Except.map] at h
    | some b =>
      cases fput with
      | some e =>
        left
        simp [store, DB.Update, hm, hb, Except.map, Bucket.Put] at h
        exact h.1.symm
      | none =>
        cases fcommit with
        | some e =>
          left
          simp [store, DB.Update, hm, hb, Except.map, Bucket.Put] at h
          exact h.1.symm
        | none =>
          right
          simp [store, DB.Update, hm, hb, Except.map, Bucket.Put] at h
          exact ⟨b, dataJson, rfl, h.1.symm⟩

/-- A store on a present bucket returns (it does not panic). -/
theorem store_returns {α : Type} (name : String) (codec : Codec α) (db : DB)
    (fault : TxFault) (data : α) (timepoint : Nat) (b : Bucket)
    (hb : db.Bucket name = some b) :
    ∃ db' err, store name codec db fault data timepoint = .ok (db', err) := by
  obtain ⟨fput, fcommit⟩ := fault
  cases hm : codec.Marshal data <;> cases fput <;> cases fcommit <;>
    simp [store, DB.Update, hm, hb, Except.map, Bucket.Put]

/-- A store at timepoint `T` leaves the get-all of the same bucket at any other version as
it was. -/
theorem store_getAll_other {α : Type} (name : String) (codec : Codec α) (db db' : DB)
    (fault : TxFault) (data : α) (T V : Nat) (err : Option Error) (hT : T < 2 ^ 64)
    (hV : V < 2 ^ 64) (hne : V ≠ T)
    (h : store name codec db fault data T = .ok (db', err)) :
    getAll name codec db' V = getAll name codec db V := by
  rcases store_cases name codec db db' fault data T err h with rfl | ⟨b, dataJson, hb, rfl⟩
  · rfl
  · have hk : uint64ToBytes V ≠ uint64ToBytes T := fun he =>
      hne (uint64ToBytes_injective V T hV hT he)
    rw [getAll_of_bucket name codec _ V _ (DB.Bucket_setBucket_self db name _),
      getAll_of_bucket name codec db V b hb]
    simp only [Bucket.Get]
    rw [lookup_insertEntry_ne _ _ _ _ hk]

/-- The get-all on a bucket: the "doesn't exist" error exactly for a present bucket without
value at the key. -/
theorem getAll_versionDoesNotExist_iff {α : Type} (name : String) (codec : Codec α) (db : DB)
    (V : Version) :
    (∃ r, getAll name codec db V = .ok (r, some (.versionDoesNotExist V)))
      ↔ ∃ b, db.Bucket name = some b ∧ b.Get (uint64ToBytes V) = none := by
  cases hb : db.Bucket name with
  | none => simp [getAll, DB.View, hb]
  | some b =>
    rw [getAll_of_bucket name codec db V b hb]
    cases hg : b.Get (uint64ToBytes V) with
    | none => simp [hg]
    | some data =>
      cases hu : (codec.Unmarshal data codec.zero).2 <;> simp [hu, hg]

/-- A version that the lookup on an ordered bucket of version keys returns is at most the
timepoint, is returned again for itself, and has a value in the bucket. -/
theorem currentVersion_retrievable {α : Type} (name : String) (codec : Codec α) (db : DB)
    (b : Bucket) (t v : Nat) (ht : t < 2 ^ 64) (hb : db.Bucket name = some b)
    (hord : b.Ordered) (hk : b.VersionKeys)
    (h : currentVersion name db t = .ok (v, none)) :
    v ≤ t ∧ currentVersion name db v = .ok (v, none)
      ∧ ∀ r, getAll name codec db v ≠ .ok (r, some (.versionDoesNotExist v)) := by
  rw [currentVersion_of_bucket name db t b hb] at h
  rcases reverseSeek_spec b t ht hord hk with ⟨m, hm, hmk, hmt, _, hr⟩ | ⟨_, hr⟩
  · rw [hr] at h
    have hmv : m = v := by
      simp only [Except.ok.injEq, Prod.mk.injEq, and_true] at h
      exact h
    subst hmv
    refine ⟨hmt, ?_, ?_⟩
    · rw [currentVersion_of_bucket name db m b hb]
      rcases reverseSeek_spec b m hm hord hk with ⟨m', _, _, hm't, hmax', hr'⟩ | ⟨hall, _⟩
      · have h1 := hmax' m hm hmk (Nat.le_refl m)
        have : m' = m := Nat.le_antisymm hm't h1
        rw [hr', this]
      · exact absurd (hall m hm hmk) (Nat.lt_irrefl m)
    · intro r hget
      have hex := (getAll_versionDoesNotExist_iff name codec db m).mp ⟨r, hget⟩
      obtain ⟨b', hb', hnone⟩ := hex
      rw [hb] at hb'
      have hbb := Option.some.inj hb'
      subst hbb
      obtain ⟨d, hd⟩ := lookup_of_mem_keys _ _ hmk
      simp only [Bucket.Get] at hnone
      rw [hd] at hnone
      cases hnone
  · rw [hr] at h
    simp at h

theorem DB.ext_buckets (a b : DB) (h : ∀ n, a.buckets n = b.buckets n) : a = b := by
  cases a; cases b
  congr
  funext n
  exact h n

/-- Construction on a database file without buckets, the engine committing: the store is
the one with the four buckets present and empty. -/
theorem NewBoltStorage_emptyDB :
    NewBoltStorage (.ok emptyDB) none = .ok (some freshStore, none) := by
  have hdb : (((emptyDB.setBucket PRICE_BUCKET ⟨[]⟩).setBucket BALANCE_BUCKET ⟨[]⟩).setBucket
      EXCHANGE_BALANCE_BUCKET ⟨[]⟩).setBucket RATE_BUCKET ⟨[]⟩ = freshStore := by
    apply DB.ext_buckets
    intro n
    simp only [DB.setBucket, emptyDB, freshStore]
    by_cases h1 : n = RATE_BUCKET
    · simp [h1]
    · by_cases h2 : n = EXCHANGE_BALANCE_BUCKET
      · simp [h2]
      · by_cases h3 : n = BALANCE_BUCKET
        · simp [h3]
        · by_cases h4 : n = PRICE_BUCKET
          · simp [h4]
          · simp [h1, h2, h3, h4]
  have hinit : initBuckets emptyDB none = .ok (none, freshStore, none) := by
    rw [← hdb]
    rfl
  simp [NewBoltStorage, hinit, Except.map]


/-- C11, on the code. The database file already holds the prices bucket and no other:
the first `tx.CreateBucket` fails with `ErrBucketExists`, the transaction is rolled back,
and after `NewBoltStorage` has returned (with a nil error) the buckets `balances`,
`ebalances` and `rates` do not exist. -/
theorem NewBoltStorage_partial_database :
    (NewBoltStorage (.ok onlyPrices) none).map
        (fun r => (r.2, r.1.map (fun d => [d.Bucket PRICE_BUCKET, d.Bucket BALANCE_BUCKET,
          d.Bucket EXCHANGE_BALANCE_BUCKET, d.Bucket RATE_BUCKET])))
      = .ok (none, some [some ⟨[]⟩, none, none, none]) := by
  decide

/-- C12, on the code. A failed open is reported; but when the bucket-creation transaction
returns an error (a bucket exists already, or the engine fails the commit), `NewBoltStorage`
returns a store with a nil error although buckets are missing. -/
theorem NewBoltStorage_drops_transaction_error :
    (NewBoltStorage (.error (.bolt 4)) none).map Prod.snd = .ok (some (.bolt 4))
    ∧ (initBuckets onlyPrices none).map (fun r => r.2.2) = .ok (some .bucketExists)
    ∧ (NewBoltStorage (.ok onlyPrices) none).map
        (fun r => (r.2, r.1.map (fun d => d.Bucket RATE_BUCKET))) = .ok (none, some none)
    ∧ (initBuckets emptyDB (some (.bolt 1))).map (fun r => r.2.2) = .ok (some (.bolt 1))
    ∧ (NewBoltStorage (.ok emptyDB) (some (.bolt 1))).map
        (fun r => (r.2, r.1.map (fun d => d.Bucket PRICE_BUCKET))) = .ok (none, some none) :=
  ⟨by decide, by decide, by decide, by decide, by decide⟩

/-- C13. `GetAllPrices(V)` returns the "version doesn't exist" error exactly when the
prices bucket has no value at the key of `V`, and when a value is there the result is what
the codec decodes from it: the decoded payload, or the codec's error; `GetAllRates`
likewise on the rates bucket. -/
theorem GetAll_version_not_found {α : Type} (codec : Codec α) (db : DB) (V : Version) :
    ((∃ r, GetAllPrices codec db V = .ok (r, some (.versionDoesNotExist V)))
        ↔ ∃ b, db.Bucket PRICE_BUCKET = some b ∧ b.Get (uint64ToBytes V) = none)
    ∧ (∀ b data, db.Bucket PRICE_BUCKET = some b → b.Get (uint64ToBytes V) = some data →
        GetAllPrices codec db V = .ok ((codec.Unmarshal data codec.zero).1,
          (codec.Unmarshal data codec.zero).2.map Error.json))
    ∧ ((∃ r, GetAllRates codec db V = .ok (r, some (.versionDoesNotExist V)))
        ↔ ∃ b, db.Bucket RATE_BUCKET = some b ∧ b.Get (uint64ToBytes V) = none)
    ∧ (∀ b data, db.Bucket RATE_BUCKET = some b → b.Get (uint64ToBytes V) = some data →
        GetAllRates codec db V = .ok ((codec.Unmarshal data codec.zero).1,
          (codec.Unmarshal data codec.zero).2.map Error.json)) := by
  refine ⟨getAll_versionDoesNotExist_iff PRICE_BUCKET codec db V, ?_,
    getAll_versionDoesNotExist_iff RATE_BUCKET codec db V, ?_⟩
  · intro b data hb hg
    rw [GetAllPrices, getAll_of_bucket PRICE_BUCKET codec db V b hb, hg]
  · intro b data hb hg
    rw [GetAllRates, getAll_of_bucket RATE_BUCKET codec db V b hb, hg]

/-- C13, on the sample store: version 20 of the prices is present and decodes, version 5
of the rates is present and decodes. -/
theorem GetAll_version_not_found_witness :
    GetAllPrices rawCodec sampleStore 20 = .ok ([2], none)
    ∧ GetAllRates rawCodec sampleStore 5 = .ok ([7], none) :=
  ⟨(GetAll_version_not_found rawCodec sampleStore 20).2.1
      ⟨[(uint64ToBytes 10, [1]), (uint64ToBytes 20, [2]), (uint64ToBytes 30, [])]⟩ [2]
      (by decide) (by decide),
    (GetAll_version_not_found rawCodec sampleStore 5).2.2.2
      ⟨[(uint64ToBytes 5, [7])]⟩ [7] (by decide) (by decide)⟩

/-- C14. `GetOnePrice(K, V)` looks the pair up in the snapshot: when `GetAllPrices(V)`
decodes a mapping `m` with no error, it returns `m[K]` with no error if `K` is in `m` and
the "Pair of token is not supported" error if it is not; when `GetAllPrices(V)` returns an
error, it returns that same error; and it panics when `GetAllPrices(V)` does. -/
theorem GetOnePrice_lookup {K V : Type} (codec : Codec (K → Option V)) (zeroPrice : V)
    (db : DB) (pair : K) (version : Version) :
    (∀ m, GetAllPrices codec db version = .ok (m, none) →
        (∀ price, m pair = some price →
          GetOnePrice codec zeroPrice db pair version = .ok (price, none))
        ∧ (m pair = none →
          GetOnePrice codec zeroPrice db pair version
            = .ok (zeroPrice, some .pairNotSupported)))
    ∧ (∀ r err, GetAllPrices codec db version = .ok (r, some err) →
        GetOnePrice codec zeroPrice db pair version = .ok (zeroPrice, some err))
    ∧ (∀ p, GetAllPrices codec db version = .error p →
        GetOnePrice codec zeroPrice db pair version = .error p) := by
  refine ⟨fun m h => ⟨fun price hp => ?_, fun hp => ?_⟩, fun r err h => ?_, fun p h => ?_⟩
  · simp only [GetAllPrices] at h
    simp [GetOnePrice, h, hp]
  · simp only [GetAllPrices] at h
    simp [GetOnePrice, h, hp]
  · simp only [GetAllPrices] at h
    simp [GetOnePrice, h]
  · simp only [GetAllPrices] at h
    simp [GetOnePrice, h]

/-- C14, on a prices bucket with a snapshot at version 7 that decodes to the map sending
pair 1 to price 5: pair 1 is found, pair 2 is not supported, and at the absent version 8
the "doesn't exist" error of `GetAllPrices` comes back. -/
theorem GetOnePrice_lookup_witness :
    GetOnePrice sampleMapCodec 0
        (freshStore.setBucket PRICE_BUCKET ⟨[(uint64ToBytes 7, [1])]⟩) 1 7 = .ok (5, none)
    ∧ GetOnePrice sampleMapCodec 0
        (freshStore.setBucket PRICE_BUCKET ⟨[(uint64ToBytes 7, [1])]⟩) 2 7
      = .ok (0, some .pairNotSupported)
    ∧ GetOnePrice sampleMapCodec 0
        (freshStore.setBucket PRICE_BUCKET ⟨[(uint64ToBytes 7, [1])]⟩) 1 8
      = .ok (0, some (.versionDoesNotExist 8)) :=
  ⟨((GetOnePrice_lookup sampleMapCodec 0
        (freshStore.setBucket PRICE_BUCKET ⟨[(uint64ToBytes 7, [1])]⟩) 1 7).1
      (fun k => if k = 1 then some 5 else none) rfl).1 5 rfl,
    ((GetOnePrice_lookup sampleMapCodec 0
        (freshStore.setBucket PRICE_BUCKET ⟨[(uint64ToBytes 7, [1])]⟩) 2 7).1
      (fun k => if k = 1 then some 5 else none) rfl).2 rfl,
    (GetOnePrice_lookup sampleMapCodec 0
        (freshStore.setBucket PRICE_BUCKET ⟨[(uint64ToBytes 7, [1])]⟩) 1 8).2.1
      (fun _ => none) (.versionDoesNotExist 8) rfl⟩

/-- C15. Empty domain: when the bucket of domain `D` exists and holds no snapshot, the
version lookup of `D` returns version 0 and the "no data before timepoint" error for every
timepoint, whatever the other buckets hold. -/
theorem CurrentVersion_empty_domain (D : Domain) (db : DB) (t : Nat)
    (h : db.Bucket D.bucket = some ⟨[]⟩) :
    D.CurrentVersion db t = .ok (0, some (.noDataBeforeTimepoint t)) := by
  rw [Domain.CurrentVersion_eq, currentVersion_of_bucket D.bucket db t ⟨[]⟩ h]
  simp [reverseSeek, Bucket.Cursor, Cursor.Seek, Cursor.Prev]

/-- C15, on the sample store, whose balances bucket is empty while prices and rates are
not, at the timepoint `2 ^ 64 - 1`. -/
theorem CurrentVersion_empty_domain_witness :
    sampleStore.Bucket Domain.balances.bucket = some ⟨[]⟩
    ∧ Domain.balances.CurrentVersion sampleStore (2 ^ 64 - 1)
        = .ok (0, some (.noDataBeforeTimepoint (2 ^ 64 - 1))) :=
  ⟨by decide, CurrentVersion_empty_domain Domain.balances sampleStore (2 ^ 64 - 1) (by decide)⟩

/-- C16. An encode failure is surfaced and writes nothing: when the codec fails to encode
the payload, the store method of every domain returns that error and the store is as it
was, whatever the engine would have done with the transaction. -/
theorem Store_encode_failure {α : Type} (D : Domain) (codec : Codec α) (db : DB)
    (fault : TxFault) (data : α) (timepoint : Nat) (e : Nat)
    (h : codec.Marshal data = .error e) :
    D.Store codec db fault data timepoint = .ok (db, some (.json e)) := by
  rw [Domain.Store_eq]
  simp [store, DB.Update, h, Except.map]

/-- C16, with the codec that fails with error 9, on the sample store. -/
theorem Store_encode_failure_witness :
    failingCodec.Marshal [1, 2] = .error 9
    ∧ Domain.prices.Store failingCodec sampleStore TxFault.none [1, 2] 7
        = .ok (sampleStore, some (.json 9)) :=
  ⟨rfl, Store_encode_failure Domain.prices failingCodec sampleStore TxFault.none [1, 2] 7 9
    rfl⟩


/-- C17. A version returned by the version lookup is retrievable, in the prices and in the
rates domain: on a store whose prices bucket (kept ordered by the engine) has version keys
only, when `CurrentPriceVersion(t)` returns `v` with no error then `v ≤ t`,
`CurrentPriceVersion(v)` returns `v` again and `GetAllPrices(v)` does not return the
"version doesn't exist" error; likewise for `CurrentRateVersion` and `GetAllRates` on the
rates bucket. -/
theorem CurrentVersion_retrievable {α : Type} (codec : Codec α) (db : DB) (t : Nat)
    (ht : t < 2 ^ 64) :
    (∀ b v, db.Bucket PRICE_BUCKET = some b → b.Ordered → b.VersionKeys →
        CurrentPriceVersion db t = .ok (v, none) →
        v ≤ t ∧ CurrentPriceVersion db v = .ok (v, none)
          ∧ ∀ r, GetAllPrices codec db v ≠ .ok (r, some (.versionDoesNotExist v)))
    ∧ (∀ b v, db.Bucket RATE_BUCKET = some b → b.Ordered → b.VersionKeys →
        CurrentRateVersion db t = .ok (v, none) →
        v ≤ t ∧ CurrentRateVersion db v = .ok (v, none)
          ∧ ∀ r, GetAllRates codec db v ≠ .ok (r, some (.versionDoesNotExist v))) :=
  ⟨fun b v hb hord hk h =>
      currentVersion_retrievable PRICE_BUCKET codec db b t v ht hb hord hk h,
    fun b v hb hord hk h =>
      currentVersion_retrievable RATE_BUCKET codec db b t v ht hb hord hk h⟩

theorem versionKeys_of_map (vs : List Nat) (es : List (Bytes × Bytes))
    (hes : es.map Prod.fst = vs.map uint64ToBytes) (hvs : ∀ v ∈ vs, v < 2 ^ 64) :
    Bucket.VersionKeys ⟨es⟩ := by
  intro k hk
  simp only [Bucket.keys] at hk
  rw [hes] at hk
  obtain ⟨v, hv, rfl⟩ := List.mem_map.mp hk
  exact ⟨v, hvs v hv, rfl⟩

/-- C17, on the sample store at timepoint 25: the prices lookup returns 20, which is at
most 25, is returned again for 20 and has a snapshot. -/
theorem CurrentVersion_retrievable_witness :
    (25 : Nat) < 2 ^ 64
    ∧ CurrentPriceVersion sampleStore 25 = .ok (20, none)
    ∧ (20 ≤ 25 ∧ CurrentPriceVersion sampleStore 20 = .ok (20, none)
        ∧ ∀ r, GetAllPrices rawCodec sampleStore 20 ≠ .ok (r, some (.versionDoesNotExist 20))) :=
  ⟨by decide, by decide,
    (CurrentVersion_retrievable rawCodec sampleStore 25 (by decide)).1
      ⟨[(uint64ToBytes 10, [1]), (uint64ToBytes 20, [2]), (uint64ToBytes 30, [])]⟩ 20
      (by decide) (by decide)
      (versionKeys_of_map [10, 20, 30] _ rfl (by decide))
      (by decide)⟩

/-- C18. `reverseSeek` is monotone in the timepoint: on an (ordered) bucket of version
keys, for timepoints `t1 ≤ t2`, when `reverseSeek(t1)` on a fresh cursor succeeds with `v1`
then `reverseSeek(t2)` on a fresh cursor succeeds with some `v2` such that
`v1 ≤ v2 ≤ t2`. -/
theorem reverseSeek_monotone (b : Bucket) (t1 t2 v1 : Nat) (h12 : t1 ≤ t2)
    (ht2 : t2 < 2 ^ 64) (hord : b.Ordered) (hk : b.VersionKeys)
    (h : reverseSeek t1 b.Cursor = .ok (v1, none)) :
    ∃ v2, reverseSeek t2 b.Cursor = .ok (v2, none) ∧ v1 ≤ v2 ∧ v2 ≤ t2 := by
  have ht1 : t1 < 2 ^ 64 := Nat.lt_of_le_of_lt h12 ht2
  rcases reverseSeek_spec b t1 ht1 hord hk with ⟨m, hm, hmk, hmt, _, hr⟩ | ⟨_, hr⟩
  · rw [hr] at h
    have hmv : m = v1 := by
      simp only [Except.ok.injEq, Prod.mk.injEq, and_true] at h
      exact h
    subst hmv
    rcases reverseSeek_spec b t2 ht2 hord hk with ⟨m2, _, _, hm2t, hmax2, hr2⟩ | ⟨hall, _⟩
    · exact ⟨m2, hr2, hmax2 m hm hmk (Nat.le_trans hmt h12), hm2t⟩
    · have := hall m hm hmk
      omega
  · rw [hr] at h
    simp at h

/-- C18, on the bucket of versions 10, 20, 30 at `t1 = 12`, `t2 = 25`: from 10 to 20. -/
theorem reverseSeek_monotone_witness :
    reverseSeek 12 (bucketOfVersions [10, 20, 30]).Cursor = .ok (10, none)
    ∧ ∃ v2, reverseSeek 25 (bucketOfVersions [10, 20, 30]).Cursor = .ok (v2, none)
        ∧ 10 ≤ v2 ∧ v2 ≤ 25 :=
  ⟨by decide,
    reverseSeek_monotone (bucketOfVersions [10, 20, 30]) 12 25 10 (by decide) (by decide)
      (by decide)
      (versionKeys_of_map [10, 20, 30] _ rfl (by decide))
      (by decide)⟩

/-- C19. Storing at one version leaves every other version of the same domain untouched:
for `uint64` timepoint `T` and version `V ≠ T`, whatever state `StorePrice(P, T)` leaves
(written, or rolled back after an encode or engine failure), `GetAllPrices(V)` returns there
what it returned before; `StorePrice` does return when the prices bucket is present;
likewise for `StoreRate` and `GetAllRates` on the rates bucket. -/
theorem Store_other_versions {α : Type} (codec : Codec α) (db : DB) (fault : TxFault)
    (P : α) (T V : Nat) (hT : T < 2 ^ 64) (hV : V < 2 ^ 64) (hne : V ≠ T) :
    (∀ db' err, StorePrice codec db fault P T = .ok (db', err) →
        GetAllPrices codec db' V = GetAllPrices codec db V)
    ∧ (∀ b, db.Bucket PRICE_BUCKET = some b →
        ∃ db' err, StorePrice codec db fault P T = .ok (db', err))
    ∧ (∀ db' err, StoreRate codec db fault P T = .ok (db', err) →
        GetAllRates codec db' V = GetAllRates codec db V)
    ∧ (∀ b, db.Bucket RATE_BUCKET = some b →
        ∃ db' err, StoreRate codec db fault P T = .ok (db', err)) :=
  ⟨fun db' err h =>
      store_getAll_other PRICE_BUCKET codec db db' fault P T V err hT hV hne h,
    fun b hb => store_returns PRICE_BUCKET codec db fault P T b hb,
    fun db' err h =>
      store_getAll_other RATE_BUCKET codec db db' fault P T V err hT hV hne h,
    fun b hb => store_returns RATE_BUCKET codec db fault P T b hb⟩

/-- C19, on the sample store: a store of prices at 20 leaves version 10 as it was. -/
theorem Store_other_versions_witness :
    (20 : Nat) < 2 ^ 64 ∧ (10 : Nat) < 2 ^ 64 ∧ (10 : Nat) ≠ 20
    ∧ GetAllPrices rawCodec
        (sampleStore.setBucket PRICE_BUCKET
          ⟨insertEntry (uint64ToBytes 20) [9]
            [(uint64ToBytes 10, [1]), (uint64ToBytes 20, [2]), (uint64ToBytes 30, [])]⟩) 10
      = GetAllPrices rawCodec sampleStore 10
    ∧ GetAllPrices rawCodec sampleStore 10 = .ok ([1], none) :=
  ⟨by decide, by decide, by decide,
    (Store_other_versions rawCodec sampleStore TxFault.none [9] 20 10 (by decide) (by decide)
        (by decide)).1 _ none
      (store_committed PRICE_BUCKET rawCodec sampleStore [9] 20
        ⟨[(uint64ToBytes 10, [1]), (uint64ToBytes 20, [2]), (uint64ToBytes 30, [])]⟩ [9]
        (by decide) rfl),
    by decide⟩


end Storage
